import Mathlib

/-!
Verification of the hall-guard-ai document-processing core against its
natural-language specification.

The development shallowly embeds the TypeScript sources:
  * `DocumentChunkingService` (document-chunking)
  * `TextExtractionService` (text-extraction)
  * `DocumentProcessor` (document-processor)
  * `FileValidationUtil` (file-validation)
  * the document status route (`estimateProcessingTime`,
    `mapDocumentStatusToProgress`)

Modelling conventions:
  * JS strings are modelled as `List Char` (inputs of interest are ASCII;
    the `\s` character class is modelled by its ASCII members).
  * JS numbers are modelled exactly: token arithmetic
    (`words*1.3 + punct*0.2 + special*0.3`, ceiling-rounded) is carried out
    in exact rational form as `(13*w + 2*p + 3*s + 9) / 10` over `Nat`;
    the status route's arithmetic is carried out over `ℚ` with `Int.ceil`
    for `Math.ceil`.  All concrete witnesses below stay far from binary
    floating-point edge cases, so the exact model agrees with IEEE doubles
    on them.
  * external npm libraries (`file-type`, `pdf-parse`, `mammoth`, `crypto`)
    and Node's UTF-8 decoder are modelled as explicit oracle parameters.
  * thrown JS values are modelled by `Except`; a JS `try/catch` becomes a
    `match` on the `Except` value.
-/

/-! ## Character classes (ASCII fragment of the JS regex classes) -/

/-- The JS `\s` class, restricted to ASCII: space, tab, LF, CR, VT, FF. -/
def wsChar (c : Char) : Bool :=
  c = ' ' || c = '\t' || c = '\n' || c.toNat = 13 || c.toNat = 11 || c.toNat = 12

/-- The JS `\w` class: ASCII letters, digits and underscore. -/
def isWordChar (c : Char) : Bool :=
  (97 ≤ c.toNat && c.toNat ≤ 122) || (65 ≤ c.toNat && c.toNat ≤ 90) ||
  (48 ≤ c.toNat && c.toNat ≤ 57) || c = '_'

/-- The punctuation class of `estimateTokenCount`: `[.!?,:;()[\]{}'"]`.
(Braces, apostrophe and double quote written via code points.) -/
def punctChar (c : Char) : Bool :=
  c = '.' || c = '!' || c = '?' || c = ',' || c = ':' || c = ';' ||
  c = '(' || c = ')' || c = '[' || c = ']' ||
  c.toNat = 123 || c.toNat = 125 || c.toNat = 39 || c.toNat = 34

/-- The class `[.!?]` used by the sentence splitter. -/
def sentPunct (c : Char) : Bool := c = '.' || c = '!' || c = '?'

def upperChar (c : Char) : Bool := 65 ≤ c.toNat && c.toNat ≤ 90
def lowerChar (c : Char) : Bool := 97 ≤ c.toNat && c.toNat ≤ 122
def digitChar (c : Char) : Bool := 48 ≤ c.toNat && c.toNat ≤ 57
def letterChar (c : Char) : Bool := upperChar c || lowerChar c
def alnumChar (c : Char) : Bool := letterChar c || digitChar c

/-- ASCII lower-casing, as used by `toLowerCase` on the inputs we model. -/
def lowerAscii (c : Char) : Char :=
  if upperChar c then Char.ofNat (c.toNat + 32) else c

/-! ## `String.prototype.trim` on `List Char` -/

def trimL (l : List Char) : List Char := l.dropWhile wsChar

def trimR (l : List Char) : List Char := (l.reverse.dropWhile wsChar).reverse

/-- JS `trim()`: drop whitespace from both ends. -/
def trimStr (l : List Char) : List Char := trimL (trimR l)

/-! ## `estimateTokenCount`

Source: `DocumentChunkingService.estimateTokenCount`.  The JS float formula
`ceil(words*1.3 + punctuationCount*0.2 + specialCharCount*0.3)` is modelled
exactly as `(13*words + 2*punct + 3*special + 9) / 10` in `Nat`. -/

/-- Number of maximal non-whitespace runs (`split(/\s+/).length` of a
trimmed non-empty string). -/
def countWordsAux : Bool → List Char → Nat
  | _, [] => 0
  | inw, c :: r =>
    if wsChar c then countWordsAux false r
    else (if inw then 0 else 1) + countWordsAux true r

/-- `text.trim().split(/\s+/).length`; JS yields `[""]` (length 1) when the
trimmed text is empty. -/
def jsWordCount (l : List Char) : Nat :=
  let t := trimStr l
  if t = [] then 1 else countWordsAux false t

def countClass (p : Char → Bool) (l : List Char) : Nat := (l.filter p).length

def estimateTokenCount (l : List Char) : Nat :=
  if l = [] then 0
  else
    let words := jsWordCount l
    let punct := countClass punctChar l
    let special := countClass (fun c => !isWordChar c && !wsChar c && !punctChar c) l
    (13 * words + 2 * punct + 3 * special + 9) / 10

theorem dropWhileLen (p : Char → Bool) (l : List Char) :
    (l.dropWhile p).length ≤ l.length := by
  induction l with
  | nil => simp [List.dropWhile]
  | cons c r ih =>
    rw [List.dropWhile]
    split
    · exact Nat.le_succ_of_le ih
    · simp

/-! ## `normalizeText` -/

/-- `replace(/\r\n/g, "\n")`. -/
def normCRLF : List Char → List Char
  | [] => []
  | '\r' :: '\n' :: r => '\n' :: normCRLF r
  | c :: r => c :: normCRLF r

/-- `replace(/\r/g, "\n")`. -/
def normCR (l : List Char) : List Char :=
  l.map fun c => if c = '\r' then '\n' else c

/-- Scanner for `replace(/\n{3,}/g, "\n\n")`; `n` counts the newlines of the
current run already emitted (only the first two of each run are kept). -/
def capNLAux : Nat → List Char → List Char
  | _, [] => []
  | n, c :: r =>
    if c = '\n' then
      if n < 2 then '\n' :: capNLAux (n + 1) r else capNLAux n r
    else c :: capNLAux 0 r

/-- `replace(/\n{3,}/g, "\n\n")`: maximal newline runs of length ≥ 3 become
exactly two newlines. -/
def capNL (l : List Char) : List Char := capNLAux 0 l

def spaceTab (c : Char) : Bool := c = ' ' || c = '\t'

mutual
/-- `replace(/[ \t]+/g, " ")`. -/
def collapseST : List Char → List Char
  | [] => []
  | c :: r => if spaceTab c then ' ' :: collapseSkipST r else c :: collapseST r

def collapseSkipST : List Char → List Char
  | [] => []
  | c :: r => if spaceTab c then collapseSkipST r else c :: collapseST r
end

/-- `DocumentChunkingService.normalizeText`. -/
def normalizeText (l : List Char) : List Char :=
  trimStr (collapseST (capNL (normCR (normCRLF l))))

/-! ## Splitting into paragraphs and lines -/

/-- Prepend a character to the first piece of a split result. -/
def consFirst (c : Char) : List (List Char) → List (List Char)
  | [] => [[c]]
  | p :: ps => (c :: p) :: ps

/-- Scanner for `split(/\n\n+/)`; the flag records whether the position is
inside an already-cut separator run of newlines. -/
def splitParasAux : Bool → List Char → List (List Char)
  | _, [] => [[]]
  | true, '\n' :: r => splitParasAux true r
  | true, c :: r => consFirst c (splitParasAux false r)
  | false, '\n' :: '\n' :: r => [] :: splitParasAux true r
  | false, '\n' :: c :: r => consFirst '\n' (consFirst c (splitParasAux false r))
  | false, ['\n'] => [['\n']]
  | false, c :: r => consFirst c (splitParasAux false r)

/-- `split(/\n\n+/)`: separators are maximal runs of ≥ 2 newlines. -/
def splitParas (l : List Char) : List (List Char) := splitParasAux false l

/-- `split("\n")`. -/
def splitLines : List Char → List (List Char)
  | [] => [[]]
  | '\n' :: r => [] :: splitLines r
  | c :: r => consFirst c (splitLines r)

/-! ## Semantic-type heuristics (`isHeading` / `isList` / `isTable`) -/

/-- Tail of `^#{1,6}\s+` after the first `#`; `n` counts hashes seen. -/
def hp1 : List Char → Nat → Bool
  | [], _ => false
  | c :: r, n => if c = '#' then n < 6 && hp1 r (n + 1) else wsChar c

/-- `^#{1,6}\s+` (markdown header). -/
def headPat1 : List Char → Bool
  | '#' :: r => hp1 r 1
  | _ => false

/-- `^[A-Z][A-Z\s]{2,}$` (ALL-CAPS short line). -/
def headPat2 : List Char → Bool
  | [] => false
  | c :: r => upperChar c && decide (2 ≤ r.length) && r.all fun d => upperChar d || wsChar d

/-- After `\s+`, accept more whitespace and then require `[A-Z]`. -/
def hp3tail2 : List Char → Bool
  | [] => false
  | c :: r => if wsChar c then hp3tail2 r else upperChar c

/-- `\s+[A-Z]`. -/
def hp3tail : List Char → Bool
  | [] => false
  | c :: r => wsChar c && hp3tail2 r

/-- After `^\d`, the rest of `^\d+\.?\s+[A-Z]`. -/
def hp3afterd : List Char → Bool
  | [] => false
  | c :: r =>
    if digitChar c then hp3afterd r
    else if c = '.' then hp3tail r
    else wsChar c && hp3tail2 r

/-- `^\d+\.?\s+[A-Z]` (numbered heading). -/
def headPat3 : List Char → Bool
  | [] => false
  | c :: r => digitChar c && hp3afterd r

/-- `^[A-Z][^.!?]*$` (short capitalised line without end punctuation). -/
def headPat4 : List Char → Bool
  | [] => false
  | c :: r => upperChar c && r.all fun d => !(d = '.' || d = '!' || d = '?')

/-- `DocumentChunkingService.isHeading`. -/
def isHeading (t : List Char) : Bool :=
  (headPat1 t || headPat2 t || headPat3 t || headPat4 t) && decide (t.length < 100)

def headWs : List Char → Bool
  | [] => false
  | c :: _ => wsChar c

/-- `^[-*+]\s+`. -/
def lp1 : List Char → Bool
  | c :: r => (c = '-' || c = '*' || c = '+') && headWs r
  | [] => false

def lp2a : List Char → Bool
  | [] => false
  | c :: r => if digitChar c then lp2a r else c = '.' && headWs r

/-- `^\d+\.\s+`. -/
def lp2 : List Char → Bool
  | c :: r => digitChar c && lp2a r
  | [] => false

/-- `^[a-z]\.\s+` with the `i` flag. -/
def lp3 : List Char → Bool
  | c :: '.' :: r => letterChar c && headWs r
  | _ => false

/-- `^•\s+` (U+2022 bullet). -/
def lp4 : List Char → Bool
  | c :: r => c.toNat = 8226 && headWs r
  | [] => false

def lp5go : List Char → Bool
  | [] => false
  | c :: r => if alnumChar c then lp5go r else c = ')' && headWs r

/-- `^\([a-z0-9]+\)\s+` with the `i` flag. -/
def lp5 : List Char → Bool
  | '(' :: c :: r => alnumChar c && lp5go r
  | _ => false

def listPat (t : List Char) : Bool := lp1 t || lp2 t || lp3 t || lp4 t || lp5 t

/-- `DocumentChunkingService.isList`. -/
def isList (t : List Char) : Bool :=
  let lines := splitLines t
  if lines.length = 1 then listPat t
  else
    let listLines := lines.filter fun ln => listPat (trimStr ln)
    decide (2 ≤ listLines.length) && decide (listLines.length = lines.length)

/-- `/\s{3,}/.test(line)`. -/
def hasWs3 : List Char → Bool
  | a :: b :: c :: r => (wsChar a && wsChar b && wsChar c) || hasWs3 (b :: c :: r)
  | _ => false

/-- `DocumentChunkingService.isTable`. -/
def isTable (t : List Char) : Bool :=
  let lines := (splitLines t).filter fun ln => trimStr ln ≠ []
  if lines.any fun ln => ln.contains '|' then
    decide (2 ≤ (lines.filter fun ln => ln.contains '|').length)
  else if 2 ≤ lines.length then
    (lines.all fun ln => ln.contains '\t') || lines.all hasWs3
  else false

inductive SemType
  | paragraph | heading | list | table | other
deriving DecidableEq, Repr

/-- `DocumentChunkingService.detectSemanticType`. -/
def detectSemanticType (t : List Char) : SemType :=
  let tr := trimStr t
  if isHeading tr then .heading
  else if isList tr then .list
  else if isTable tr then .table
  else .paragraph

/-! ## Sentence splitting (`splitIntoSentences`) -/

/-- The abbreviation alternatives, in source order.  `e.g` and `i.e` keep
their literal dots, which are regex wildcards in the source pattern. -/
def abbrevPats : List (List Char) :=
  ["Dr".data, "Prof".data, "Mr".data, "Mrs".data, "Ms".data, "vs".data,
   "etc".data, "e.g".data, "i.e".data, "Inc".data, "Ltd".data, "Co".data]

/-- Match one alternative at the head of the input.  A literal `.` in the
pattern is the regex wildcard (anything except line terminators); letters
match case-insensitively (`i` flag).  Returns the consumed characters and
the remainder. -/
def altMatch : List Char → List Char → Option (List Char × List Char)
  | [], l => some ([], l)
  | _ :: _, [] => none
  | p :: ps, c :: cs =>
    if p = '.' then
      if c = '\n' || c = '\r' then none
      else (altMatch ps cs).map fun pr => (c :: pr.1, pr.2)
    else
      if lowerAscii p = lowerAscii c then (altMatch ps cs).map fun pr => (c :: pr.1, pr.2)
      else none

/-- Keep an alternative match only when the next input character is the
literal dot required by the pattern; the dot is consumed. -/
def dotAfter : Option (List Char × List Char) → Option (List Char × List Char)
  | some (m, '.' :: r) => some (m, r)
  | _ => none

/-- First alternative (in order) that matches and is followed by a literal
dot. -/
def firstAltMatch : List (List Char) → List Char → Option (List Char × List Char)
  | [], _ => none
  | a :: rest, l =>
    match dotAfter (altMatch a l) with
    | some pr => some pr
    | none => firstAltMatch rest l

/-- The `<!DOT!>` replacement marker. -/
def dotMark : List Char := "<!DOT!>".data

theorem altMatch_rest_length :
    ∀ (p l m r : List Char), altMatch p l = some (m, r) → r.length ≤ l.length := by
  intro p
  induction p with
  | nil =>
    intro l m r h
    simp only [altMatch, Option.some.injEq, Prod.mk.injEq] at h
    simp [← h.2]
  | cons p ps ih =>
    intro l m r h
    cases l with
    | nil => simp [altMatch] at h
    | cons c cs =>
      simp only [altMatch] at h
      split at h
      · split at h
        · exact absurd h (by simp)
        · simp only [Option.map_eq_some'] at h
          obtain ⟨⟨m', r'⟩, hm, he⟩ := h
          obtain ⟨he1, he2⟩ := Prod.mk.injEq .. ▸ he
          subst he2
          exact Nat.le_succ_of_le (ih cs m' r' hm)
      · split at h
        · simp only [Option.map_eq_some'] at h
          obtain ⟨⟨m', r'⟩, hm, he⟩ := h
          obtain ⟨he1, he2⟩ := Prod.mk.injEq .. ▸ he
          subst he2
          exact Nat.le_succ_of_le (ih cs m' r' hm)
        · exact absurd h (by simp)

theorem dotAfter_eq :
    ∀ (x : Option (List Char × List Char)) (m r : List Char),
      dotAfter x = some (m, r) → x = some (m, '.' :: r) := by
  intro x m r h
  rw [dotAfter.eq_def] at h
  split at h
  · rename_i heq
    obtain ⟨h1, h2⟩ := Prod.mk.injEq .. ▸ Option.some.inj h
    subst h1; subst h2
    rfl
  · exact absurd h (by simp)

theorem firstAltMatch_rest_length :
    ∀ (alts : List (List Char)) (l m r : List Char),
      firstAltMatch alts l = some (m, r) → r.length < l.length := by
  intro alts
  induction alts with
  | nil => intro l m r h; simp [firstAltMatch] at h
  | cons a rest ih =>
    intro l m r h
    rw [firstAltMatch] at h
    split at h
    · rename_i pr heq
      cases Option.some.inj h
      have hd := dotAfter_eq _ _ _ heq
      have hl := altMatch_rest_length a l m ('.' :: r) hd
      simp at hl
      omega
    · exact ih l m r h

/-- The abbreviation-protection pass: JS
`text.replace(new RegExp("\\b(Dr|Prof|...)\\.", "gi"), (_m, abbr) => abbr + "<!DOT!>")`.
The boolean argument records whether the current position is a `\b`
boundary (start of string, or previous character not in `\w`); the fuel
argument (initialised to the input length, which every step strictly
consumes) makes the definition structural so that it computes by kernel
reduction. -/
def replAbbrevAux : Nat → Bool → List Char → List Char
  | 0, _, l => l
  | _ + 1, _, [] => []
  | fuel + 1, bnd, c :: r =>
    if bnd then
      match firstAltMatch abbrevPats (c :: r) with
      | some (m, rest) => m ++ dotMark ++ replAbbrevAux fuel true rest
      | none => c :: replAbbrevAux fuel (!isWordChar c) r
    else c :: replAbbrevAux fuel (!isWordChar c) r

def replAbbrev (l : List Char) : List Char := replAbbrevAux l.length true l

/-- `replace(/<!DOT!>/g, ".")`. -/
def restoreDots : List Char → List Char
  | '<' :: '!' :: 'D' :: 'O' :: 'T' :: '!' :: '>' :: r => '.' :: restoreDots r
  | c :: r => c :: restoreDots r
  | [] => []

/-- Consume the whitespace run after a matched separator (greedy `\s+`);
`pre` is the reversed prefix before the separator. -/
def findSepWs (pre : List Char) : List Char → List Char × List Char
  | [] => (pre.reverse, [])
  | c :: r => if wsChar c then findSepWs pre r else (pre.reverse, c :: r)

mutual
/-- Inside a run of sentence punctuation (`pend` is the reversed run so
far): extend it, complete the separator on whitespace, or flush the run into
the prefix when no whitespace follows (no separator can start inside the
run, since every inner start hits the same non-whitespace terminator). -/
def findSepPunct (pre pend : List Char) : List Char → Option (List Char × List Char)
  | [] => none
  | c :: r =>
    if sentPunct c then findSepPunct pre (c :: pend) r
    else if wsChar c then some (findSepWs pre r)
    else findSepAux (c :: pend ++ pre) r

/-- Scan for the earliest separator `[.!?]+\s+`; `pre` is the reversed
prefix scanned so far.  Returns the piece before the separator and the rest
after it. -/
def findSepAux (pre : List Char) : List Char → Option (List Char × List Char)
  | [] => none
  | c :: r => if sentPunct c then findSepPunct pre [c] r else findSepAux (c :: pre) r
end

/-- First separator of `split(/[.!?]+\s+/)`. -/
def findSep (l : List Char) : Option (List Char × List Char) :=
  findSepAux [] l

/-- `split(/[.!?]+\s+/)`, with a length fuel making the recursion
structural. -/
def splitSentFuel : Nat → List Char → List (List Char)
  | 0, l => [l]
  | fuel + 1, l =>
    match findSep l with
    | none => [l]
    | some (pre, rest) => pre :: splitSentFuel fuel rest

/-- `split(/[.!?]+\s+/)`: a separator is a maximal run of sentence
punctuation followed by at least one whitespace character (consumed
greedily). -/
def splitSent (l : List Char) : List (List Char) := splitSentFuel l.length l

/-- `DocumentChunkingService.splitIntoSentences`. -/
def splitIntoSentences (l : List Char) : List (List Char) :=
  (((splitSent (replAbbrev l)).map restoreDots).filter fun s => trimStr s ≠ [])

/-! ## Semantic units -/

structure SemanticUnit where
  content : List Char
  type : SemType
  startPosition : Nat
  endPosition : Nat
  tokenCount : Nat
deriving DecidableEq, Repr

/-- The sentence sub-loop of `splitIntoSemanticUnits`; returns the units and
the final `position`. -/
def buildSentenceUnits : Nat → List (List Char) → List SemanticUnit × Nat
  | pos, [] => ([], pos)
  | pos, s :: rest =>
    if trimStr s = [] then buildSentenceUnits pos rest
    else
      let u : SemanticUnit :=
        ⟨trimStr s, .paragraph, pos, pos + s.length, estimateTokenCount (trimStr s)⟩
      let p := buildSentenceUnits (pos + s.length) rest
      (u :: p.1, p.2)

/-- The paragraph loop of `splitIntoSemanticUnits`.  `svcMax` is
`this.options.maxTokens` (the service-level options, not the per-call
override). -/
def buildUnits (svcMax : Nat) : Nat → List (List Char) → List SemanticUnit
  | _, [] => []
  | pos, p :: rest =>
    if trimStr p = [] then buildUnits svcMax pos rest
    else
      let tp := trimStr p
      let st := detectSemanticType tp
      if st = .paragraph ∧ estimateTokenCount tp > svcMax then
        let sp := buildSentenceUnits pos (splitIntoSentences tp)
        sp.1 ++ buildUnits svcMax sp.2 rest
      else
        ⟨tp, st, pos, pos + tp.length, estimateTokenCount tp⟩ ::
          buildUnits svcMax (pos + tp.length + 2) rest

/-- `DocumentChunkingService.splitIntoSemanticUnits`. -/
def splitIntoSemanticUnits (svcMax : Nat) (text : List Char) : List SemanticUnit :=
  buildUnits svcMax 0 (splitParas text)

/-! ## Chunk assembly (`createChunks` and helpers) -/

structure ChunkingOptions where
  maxTokens : Nat
  overlapTokens : Nat
  minChunkSize : Nat
deriving DecidableEq, Repr

/-- `DEFAULT_CHUNKING_OPTIONS` from the shared types module
(src/unnamed/part_006): `{maxTokens: 1500, overlapTokens: 150,
minChunkSize: 100}` (the unused `preserveSemanticBoundaries` flag is not
modelled). -/
def DEFAULT_CHUNKING_OPTIONS : ChunkingOptions := ⟨1500, 150, 100⟩

/-- A per-call `Partial<ChunkingOptions>` override. -/
structure PartialChunkingOptions where
  maxTokens : Option Nat := none
  overlapTokens : Option Nat := none
  minChunkSize : Option Nat := none
deriving DecidableEq, Repr

/-- `{...this.options, ...options}`. -/
def mergeOptions (svc : ChunkingOptions) (p : PartialChunkingOptions) : ChunkingOptions :=
  ⟨p.maxTokens.getD svc.maxTokens, p.overlapTokens.getD svc.overlapTokens,
   p.minChunkSize.getD svc.minChunkSize⟩

structure DocumentChunk where
  index : Nat
  content : List Char
  tokenCount : Nat
  startPosition : Nat
  endPosition : Nat
  semanticType : SemType
  unitCount : Nat
  typeCounts : List (SemType × Nat)
deriving DecidableEq, Repr

/-- Insertion-ordered occurrence counting (JS object used as a counter map;
key order is first-insertion order). -/
def bumpType : List (SemType × Nat) → SemType → List (SemType × Nat)
  | [], t => [(t, 1)]
  | (a, n) :: r, t => if a = t then (a, n + 1) :: r else (a, n) :: bumpType r t

def typeCountsOf (us : List SemanticUnit) : List (SemType × Nat) :=
  us.foldl (fun acc u => bumpType acc u.type) []

/-- `Object.entries(typeCounts).reduce((a, b) => a[1] > b[1] ? a : b)`:
on ties the later entry wins. -/
def pickPrimary : List (SemType × Nat) → SemType
  | [] => .paragraph
  | e :: r => (r.foldl (fun a b => if a.2 > b.2 then a else b) e).1

/-- `units.map(u => u.content).join("\n\n")`. -/
def joinContents : List (List Char) → List Char
  | [] => []
  | [x] => x
  | x :: y :: r => x ++ '\n' :: '\n' :: joinContents (y :: r)

/-- `DocumentChunkingService.buildChunk`. -/
def buildChunk (us : List SemanticUnit) (idx : Nat) : DocumentChunk :=
  let content := joinContents (us.map (·.content))
  let tcs := typeCountsOf us
  { index := idx
    content := trimStr content
    tokenCount := (us.map (·.tokenCount)).sum
    startPosition := (us.head?.map (·.startPosition)).getD 0
    endPosition := (us.getLast?.map (·.endPosition)).getD 0
    semanticType := pickPrimary tcs
    unitCount := us.length
    typeCounts := tcs }

/-- `DocumentChunkingService.createOverlap`: take units from the end while
the accumulated token count is below `overlapTokens`. -/
def createOverlapAux : List SemanticUnit → Nat → Nat → List SemanticUnit → List SemanticUnit
  | [], _, _, acc => acc
  | u :: rest, k, sum, acc =>
    if sum < k then createOverlapAux rest k (sum + u.tokenCount) (u :: acc) else acc

def createOverlap (us : List SemanticUnit) (k : Nat) : List SemanticUnit :=
  createOverlapAux us.reverse k 0 []

/-- `DocumentChunkingService.splitLargeUnit`'s sentence-accumulation loop:
`(sentences, currentContent, currentTokens, startPos)`. -/
def splitLargeAux (ty : SemType) (maxT : Nat) :
    List (List Char) → List Char → Nat → Nat → List SemanticUnit
  | [], cur, ct, sp =>
    if cur = [] then [] else [⟨trimStr cur, ty, sp, sp + cur.length, ct⟩]
  | s :: rest, cur, ct, sp =>
    let st := estimateTokenCount s
    if ct + st > maxT ∧ cur ≠ [] then
      ⟨trimStr cur, ty, sp, sp + cur.length, ct⟩ ::
        splitLargeAux ty maxT rest s st (sp + cur.length)
    else splitLargeAux ty maxT rest (cur ++ (if cur = [] then [] else [' ']) ++ s) (ct + st) sp

def splitLargeUnit (u : SemanticUnit) (maxT : Nat) : List SemanticUnit :=
  splitLargeAux u.type maxT (splitIntoSentences u.content) [] 0 u.startPosition

/-- Loop state of `createChunks`. -/
structure ChunkState where
  chunks : List DocumentChunk
  cur : List SemanticUnit
  curTok : Nat
  idx : Nat
deriving Repr

/-- One iteration of the inner `splitUnits` loop (no overlap carry). -/
def stepPiece (maxT : Nat) (st : ChunkState) (su : SemanticUnit) : ChunkState :=
  if st.curTok + su.tokenCount > maxT ∧ st.cur ≠ [] then
    { chunks := st.chunks ++ [buildChunk st.cur st.idx]
      cur := [su], curTok := su.tokenCount, idx := st.idx + 1 }
  else { st with cur := st.cur ++ [su], curTok := st.curTok + su.tokenCount }

/-- One iteration of the outer unit loop of `createChunks`. -/
def stepUnit (o : ChunkingOptions) (st : ChunkState) (u : SemanticUnit) : ChunkState :=
  let st1 :=
    if st.curTok + u.tokenCount > o.maxTokens ∧ st.cur ≠ [] then
      if 0 < o.overlapTokens then
        let ov := createOverlap st.cur o.overlapTokens
        { chunks := st.chunks ++ [buildChunk st.cur st.idx]
          cur := ov, curTok := (ov.map (·.tokenCount)).sum, idx := st.idx + 1 }
      else
        { chunks := st.chunks ++ [buildChunk st.cur st.idx]
          cur := [], curTok := 0, idx := st.idx + 1 }
    else st
  if u.tokenCount > o.maxTokens then
    (splitLargeUnit u o.maxTokens).foldl (stepPiece o.maxTokens) st1
  else { st1 with cur := st1.cur ++ [u], curTok := st1.curTok + u.tokenCount }

/-- `createChunks` before the final minimum-size filter. -/
def createChunksRaw (o : ChunkingOptions) (units : List SemanticUnit) : List DocumentChunk :=
  let fin := units.foldl (stepUnit o) ⟨[], [], 0, 0⟩
  if fin.cur ≠ [] then fin.chunks ++ [buildChunk fin.cur fin.idx] else fin.chunks

/-- `DocumentChunkingService.createChunks` (assembly plus the final filter
`chunk.tokenCount >= minChunkSize || chunks.length === 1`). -/
def createChunks (o : ChunkingOptions) (units : List SemanticUnit) : List DocumentChunk :=
  let raw := createChunksRaw o units
  raw.filter fun c => o.minChunkSize ≤ c.tokenCount || raw.length = 1

/-- A `ProcessingError` value, from the shared types module
(src/unnamed/part_006): the shape `{code, message, details?, retryable}`
that `createProcessingError(code, message, details, retryable)` populates
(via `ProcessingErrorImpl`).  The opaque `details` payload is not modelled
(no claim inspects it). -/
structure ProcessingError where
  code : String
  message : String
  retryable : Bool
deriving DecidableEq, Repr

/-- `DocumentChunkingService.chunkDocument`.  The only value the body can
throw is the `EMPTY_TEXT` `ProcessingError`, which the surrounding `catch`
re-throws unchanged (`isProcessingError` holds for it), so the
`CHUNKING_FAILED` wrapper branch is unreachable in the model. -/
def chunkDocument (svc : ChunkingOptions) (p : PartialChunkingOptions)
    (text : List Char) : Except ProcessingError (List DocumentChunk) :=
  let o := mergeOptions svc p
  if trimStr text = [] then
    .error ⟨"EMPTY_TEXT", "Cannot chunk empty text", false⟩
  else
    .ok (createChunks o (splitIntoSemanticUnits svc.maxTokens (normalizeText text)))

/-! ## Shared constants of the types module (src/unnamed/part_006) -/

/-- `SUPPORTED_FILE_TYPES` from the shared types module
(src/unnamed/part_006): `{pdf, docx, doc, txt, rtf}`. -/
def SUPPORTED_FILE_TYPES : List String := ["pdf", "docx", "doc", "txt", "rtf"]

/-- `MAX_FILE_SIZE` from the shared types module (src/unnamed/part_006):
100 MB. -/
def MAX_FILE_SIZE : Nat := 100 * 1024 * 1024

/-- `MIME_TYPE_MAP` from the shared types module (src/unnamed/part_006),
mapping each supported extension to its expected MIME set. -/
def MIME_TYPE_MAP (ext : String) : Option (List String) :=
  if ext = "pdf" then some ["application/pdf"]
  else if ext = "docx" then
    some ["application/vnd.openxmlformats-officedocument.wordprocessingml.document"]
  else if ext = "doc" then some ["application/msword"]
  else if ext = "txt" then some ["text/plain"]
  else if ext = "rtf" then some ["application/rtf", "text/rtf"]
  else none

/-! ## Thrown JS values -/

/-- A thrown JS value: either a `ProcessingError` record or some other
error/exception carrying a message. -/
inductive JsErr
  | perr (e : ProcessingError)
  | js (msg : String)
deriving DecidableEq, Repr

/-- The `isProcessingError` type guard from the shared types module
(src/unnamed/part_006): checks for the `ProcessingError` shape, which the
`.perr` constructor has and a bare `Error` does not. -/
def isProcessingError : JsErr → Bool
  | .perr _ => true
  | .js _ => false

/-- `error instanceof Error ? error.message : String(error)`.
`ProcessingErrorImpl extends Error` in the shared types module
(src/unnamed/part_006) and `createProcessingError` returns such an instance,
so a thrown `ProcessingError` is an `Error` and contributes its `message`;
the `.js` constructor models every other thrown `Error`. -/
def errMsgOf : JsErr → String
  | .js m => m
  | .perr e => e.message

/-! ## `TextExtractionService` -/

inductive SFT
  | pdf | docx | doc | txt | rtf
deriving DecidableEq, Repr

def sftName : SFT → String
  | .pdf => "pdf"
  | .docx => "docx"
  | .doc => "doc"
  | .txt => "txt"
  | .rtf => "rtf"

/-- Result shape of the external `pdf-parse` library. -/
structure PdfData where
  text : List Char
  title : Option String := none
  author : Option String := none
  pages : Option Nat := none
deriving Repr

/-- Oracles for the external npm libraries and Node builtins used by the
pipeline: `file-type`'s `fileTypeFromBuffer` (returning the detected MIME),
`pdf-parse`, `mammoth.extractRawText`, `Buffer.toString("utf8")` and
`crypto`'s SHA-256; `elapsedMs` stands for the wall clock consulted by
`Date.now()`. -/
structure ExtDeps where
  sniff : List Nat → Option String
  pdfParse : List Nat → Except JsErr PdfData
  mammoth : List Nat → Except JsErr (List Char)
  utf8Decode : List Nat → List Char
  sha256 : List Nat → String
  elapsedMs : Nat

/-- Node's `"ascii"` decoding: each byte masked to 7 bits. -/
def asciiDecode (b : List Nat) : List Char := b.map fun n => Char.ofNat (n % 128)

/-- Generic single-character split (`String.prototype.split` with a
one-character separator). -/
def splitOnChar (sep : Char) : List Char → List (List Char)
  | [] => [[]]
  | c :: r => if c = sep then [] :: splitOnChar sep r else consFirst c (splitOnChar sep r)

/-- `filename.toLowerCase().split(".").pop()`: the last piece (the whole
lower-cased name when there is no dot). -/
def jsPopExt (filename : List Char) : List Char :=
  (splitOnChar '.' (filename.map lowerAscii)).getLastD []

/-- The extension-fallback tail of `detectFileType`. -/
def detectByExtension (filename : List Char) : Except JsErr SFT :=
  let ext := jsPopExt filename
  if ext = "pdf".data then .ok .pdf
  else if ext = "docx".data then .ok .docx
  else if ext = "doc".data then .ok .doc
  else if ext = "txt".data then .ok .txt
  else if ext = "rtf".data then .ok .rtf
  else
    .error (.perr ⟨"UNKNOWN_FILE_TYPE",
      "Cannot determine file type for " ++ String.mk filename, false⟩)

/-- The `try` body of `TextExtractionService.detectFileType`: prefer the
content-sniffed MIME, fall back to the filename extension. -/
def detectFileTypeBody (deps : ExtDeps) (buffer : List Nat) (filename : List Char) :
    Except JsErr SFT :=
  match deps.sniff buffer with
  | some m =>
    if m = "application/pdf" then .ok .pdf
    else if m = "application/vnd.openxmlformats-officedocument.wordprocessingml.document"
      then .ok .docx
    else if m = "application/msword" then .ok .doc
    else if m = "text/plain" then .ok .txt
    else if m = "application/rtf" || m = "text/rtf" then .ok .rtf
    else detectByExtension filename
  | none => detectByExtension filename

/-- `TextExtractionService.detectFileType`: its `catch` block wraps any
thrown value — including the `UNKNOWN_FILE_TYPE` `ProcessingError` raised in
the body — into a `FILE_TYPE_DETECTION_FAILED` error. -/
def detectFileType (deps : ExtDeps) (buffer : List Nat) (filename : List Char) :
    Except JsErr SFT :=
  match detectFileTypeBody deps buffer filename with
  | .ok t => .ok t
  | .error e =>
    .error (.perr ⟨"FILE_TYPE_DETECTION_FAILED",
      "Failed to detect file type: " ++ errMsgOf e, false⟩)

/-- Best-effort extraction metadata. -/
structure DocMeta where
  title : Option String := none
  author : Option String := none
  pages : Option Nat := none
deriving DecidableEq, Repr

def extractFromPDF (deps : ExtDeps) (buffer : List Nat) :
    Except JsErr (List Char × DocMeta) :=
  match deps.pdfParse buffer with
  | .ok d => .ok (d.text, ⟨d.title, d.author, d.pages⟩)
  | .error e =>
    .error (.perr ⟨"PDF_EXTRACTION_FAILED", "Failed to extract PDF: " ++ errMsgOf e, false⟩)

def extractFromWord (deps : ExtDeps) (buffer : List Nat) :
    Except JsErr (List Char × DocMeta) :=
  match deps.mammoth buffer with
  | .ok v => .ok (v, {})
  | .error e =>
    .error (.perr ⟨"WORD_EXTRACTION_FAILED",
      "Failed to extract Word document: " ++ errMsgOf e, false⟩)

/-- `extractFromText`: the first attempted encoding (`utf8`) never throws in
Node, so the encoding loop always succeeds with the UTF-8 decoding; an empty
result is rejected. -/
def extractFromText (deps : ExtDeps) (buffer : List Nat) :
    Except JsErr (List Char × DocMeta) :=
  let text := deps.utf8Decode buffer
  if text = [] then
    .error (.perr ⟨"TEXT_EXTRACTION_FAILED",
      "Failed to extract text file: Could not decode text with any supported encoding",
      false⟩)
  else .ok (text, {})

/-- Skip the tail of an RTF control word: `[a-z]*\d*\s?` (the first letter
was already consumed by the caller). -/
def rtfSkipCW (l : List Char) : List Char :=
  let l1 := l.dropWhile lowerChar
  let l2 := l1.dropWhile digitChar
  match l2 with
  | d :: r => if wsChar d then r else l2
  | [] => []

theorem rtfSkipCW_len (l : List Char) : (rtfSkipCW l).length ≤ l.length := by
  rw [rtfSkipCW]
  have h1 := dropWhileLen lowerChar l
  have h2 := dropWhileLen digitChar (l.dropWhile lowerChar)
  split
  · rename_i d r heq
    split
    · rw [heq] at h2; simp at h2; omega
    · rw [heq] at h2 ⊢; omega
  · simp

/-- `replace(/\\[a-z]+\d*\s?/g, "")`: a backslash followed by a lowercase
letter starts a control word (removed); any other character is kept and the
scan advances one position. -/
def rtfStrip1 (l : List Char) : List Char :=
  match l with
  | [] => []
  | ['\\'] => ['\\']
  | '\\' :: d :: r2 =>
    if lowerChar d then rtfStrip1 (rtfSkipCW r2) else '\\' :: rtfStrip1 (d :: r2)
  | c :: r => c :: rtfStrip1 r
termination_by l.length
decreasing_by
  all_goals first
    | (have hskip := rtfSkipCW_len r2; simp; omega)
    | simp

/-- `replace(/[{}]/g, "")`. -/
def stripBraces (l : List Char) : List Char :=
  l.filter fun c => !(c.toNat = 123 || c.toNat = 125)

/-- `replace(/\\\\/g, "\\")`. -/
def unescBackslash : List Char → List Char
  | '\\' :: '\\' :: r => '\\' :: unescBackslash r
  | c :: r => c :: unescBackslash r
  | [] => []

/-- `replace(/\\'/g, "'")` (apostrophe written via its code point). -/
def unescQuote (l : List Char) : List Char :=
  match l with
  | [] => []
  | ['\\'] => ['\\']
  | '\\' :: d :: r2 =>
    if d.toNat = 39 then Char.ofNat 39 :: unescQuote r2 else '\\' :: unescQuote (d :: r2)
  | c :: r => c :: unescQuote r
termination_by l.length
decreasing_by
  all_goals first | (simp; omega) | simp | omega

mutual
/-- `replace(/\s+/g, " ")`. -/
def collapseWS : List Char → List Char
  | [] => []
  | c :: r => if wsChar c then ' ' :: collapseSkipWS r else c :: collapseWS r

def collapseSkipWS : List Char → List Char
  | [] => []
  | c :: r => if wsChar c then collapseSkipWS r else c :: collapseWS r
end

/-- `extractFromRTF`: conservative strip of control words, braces and
escapes, then whitespace normalisation. -/
def extractFromRTF (buffer : List Nat) : Except JsErr (List Char × DocMeta) :=
  let rtfText := asciiDecode buffer
  let text :=
    trimStr (collapseWS (unescQuote (unescBackslash (stripBraces (rtfStrip1 rtfText)))))
  .ok (text, {})

/-- `TextExtractionService.extractText`: detect the type, dispatch to the
per-format extractor; the `catch` re-throws `ProcessingError` values and
wraps anything else as `EXTRACTION_FAILED`.  (The enum makes the
`UNSUPPORTED_FILE_TYPE` default case of the dispatch unreachable.) -/
def extractText (deps : ExtDeps) (buffer : List Nat) (filename : List Char) :
    Except JsErr (List Char × DocMeta) :=
  let body : Except JsErr (List Char × DocMeta) :=
    match detectFileType deps buffer filename with
    | .error e => .error e
    | .ok .pdf => extractFromPDF deps buffer
    | .ok .docx => extractFromWord deps buffer
    | .ok .doc => extractFromWord deps buffer
    | .ok .txt => extractFromText deps buffer
    | .ok .rtf => extractFromRTF buffer
  match body with
  | .ok v => .ok v
  | .error e =>
    if isProcessingError e then .error e
    else .error (.perr ⟨"EXTRACTION_FAILED", "Failed to extract text: " ++ errMsgOf e, false⟩)

structure TESValidation where
  valid : Bool
  errors : List String
  fileType : Option SFT := none
deriving Repr

/-- `TextExtractionService.validateFile`: size checks, type detection (its
failure is caught and reported as `Validation failed: ...`), and — only when
no error was recorded so far — a readability probe that runs `extractText`
and records a corruption error on failure. -/
def tesValidateFile (deps : ExtDeps) (buffer : List Nat) (filename : List Char) :
    TESValidation :=
  let sizeErrors :=
    (if buffer.length = 0 then ["File is empty"] else []) ++
    (if buffer.length > 100 * 1024 * 1024 then ["File size exceeds 100MB limit"] else [])
  match detectFileType deps buffer filename with
  | .error e =>
    { valid := false, errors := ["Validation failed: " ++ errMsgOf e] }
  | .ok ft =>
    let errors :=
      sizeErrors ++
        (if sizeErrors = [] then
          match extractText deps buffer filename with
          | .ok _ => []
          | .error e => ["File appears to be corrupted or unreadable: " ++ errMsgOf e]
        else [])
    { valid := errors = [], errors := errors, fileType := some ft }

/-! ## `DocumentProcessor` -/

inductive Stage
  | uploading | extracting | chunking | analyzing | completed | failed
deriving DecidableEq, Repr

structure ProcessingProgress where
  stage : Stage
  progress : Nat
  message : String
  estimatedTimeRemaining : Option ℚ := none
  error : Option ProcessingError := none
deriving Repr

structure DocumentMetadata where
  filename : List Char
  originalFilename : List Char
  fileType : String
  fileSize : Nat
  fileHash : String
  title : Option String := none
  author : Option String := none
  pages : Option Nat := none
deriving Repr

structure ProcessingResult where
  success : Bool
  extractedText : Option (List Char) := none
  chunks : Option (List DocumentChunk) := none
  metadata : Option DocumentMetadata := none
  processingTimeMs : Nat
  error : Option ProcessingError := none
deriving Repr

/-- Which pipeline stages the orchestrator actually invoked:
`extractionService.extractText` and `chunkingService.chunkDocument`. -/
inductive StageCall
  | extractStage | chunkStage
deriving DecidableEq, Repr

/-- `DocumentProcessor.isRetryableError`. -/
def isRetryableCode (code : String) : Bool :=
  code = "NETWORK_ERROR" || code = "TIMEOUT" || code = "TEMPORARY_FAILURE"

/-- `DocumentProcessor.createError` (via `createProcessingError`). -/
def dpError (code message : String) : ProcessingError :=
  ⟨code, message, isRetryableCode code⟩

/-- The `catch` block's normalisation: re-use a thrown `ProcessingError`,
wrap anything else as `PROCESSING_FAILED`. -/
def toProcessedError : JsErr → ProcessingError
  | .perr e => e
  | .js m => dpError "PROCESSING_FAILED" ("Document processing failed: " ++ m)

/-- `Math.ceil(fileSize / (1024*1024)) * 1.5`. -/
def estimateExtractionTime (fileSize : Nat) : ℚ :=
  (⌈(fileSize : ℚ) / 1048576⌉ : ℚ) * (3 / 2)

/-- `Math.ceil(textLength / 10000) * 0.5`. -/
def estimateChunkingTime (textLength : Nat) : ℚ :=
  (⌈(textLength : ℚ) / 10000⌉ : ℚ) * (1 / 2)

def failedEvent (e : ProcessingError) : ProcessingProgress :=
  ⟨.failed, 0, e.message, none, some e⟩

def getFileTypeFromName (filename : List Char) : String := String.mk (jsPopExt filename)

/-- `DocumentProcessor.processDocument`.  Returns the result together with
the emitted progress events (the `onProgress` callback modelled as an event
sink) and the list of pipeline-stage service calls the orchestrator made.
Every `throw` in the body lands in the single `catch`, which builds the
`failed` event and the failure result — the function itself is total. -/
def processDocument (deps : ExtDeps) (chunkOpts : ChunkingOptions)
    (buffer : List Nat) (filename : List Char) :
    ProcessingResult × List ProcessingProgress × List StageCall :=
  let ev0 : List ProcessingProgress := [⟨.extracting, 0, "Validating file...", none, none⟩]
  let v := tesValidateFile deps buffer filename
  if ¬ v.valid then
    let e := dpError "VALIDATION_FAILED"
      ("File validation failed: " ++ String.intercalate ", " v.errors)
    (⟨false, none, none, none, deps.elapsedMs, some e⟩, ev0 ++ [failedEvent e], [])
  else
    let fileHash := deps.sha256 buffer
    let ev1 := ev0 ++ [⟨.extracting, 20, "Extracting text from document...",
      some (estimateExtractionTime buffer.length), none⟩]
    match extractText deps buffer filename with
    | .error err =>
      let pe := toProcessedError err
      (⟨false, none, none, none, deps.elapsedMs, some pe⟩,
        ev1 ++ [failedEvent pe], [.extractStage])
    | .ok (text, em) =>
      if trimStr text = [] then
        let pe := dpError "EMPTY_DOCUMENT" "No text content found in document"
        (⟨false, none, none, none, deps.elapsedMs, some pe⟩,
          ev1 ++ [failedEvent pe], [.extractStage])
      else
        let md : DocumentMetadata :=
          { filename := filename, originalFilename := filename
            fileType := getFileTypeFromName filename
            fileSize := buffer.length, fileHash := fileHash
            title := em.title, author := em.author, pages := em.pages }
        let ev2 := ev1 ++ [⟨.chunking, 60, "Creating document chunks...",
          some (estimateChunkingTime text.length), none⟩]
        match chunkDocument chunkOpts {} text with
        | .error ce =>
          (⟨false, none, none, none, deps.elapsedMs, some ce⟩,
            ev2 ++ [failedEvent ce], [.extractStage, .chunkStage])
        | .ok chunks =>
          if chunks = [] then
            let pe := dpError "CHUNKING_FAILED" "Failed to create document chunks"
            (⟨false, none, none, none, deps.elapsedMs, some pe⟩,
              ev2 ++ [failedEvent pe], [.extractStage, .chunkStage])
          else
            let evDone := ev2 ++ [⟨.completed, 100,
              "Successfully processed document into " ++ toString chunks.length ++ " chunks",
              none, none⟩]
            (⟨true, some text, some chunks, some md, deps.elapsedMs, none⟩,
              evDone, [.extractStage, .chunkStage])

/-! ## `FileValidationUtil` (file-validation) -/

structure ValidationOptions where
  maxFileSize : Option Nat := none
  allowedTypes : Option (List String) := none
  allowExecutables : Option Bool := none
  strictMimeTypeCheck : Option Bool := none

/-- `FileValidationUtil.getFileExtension`: lower-case, split on dots, take
the last piece; no dot — or an empty final piece (trailing dot) — yields
`null`. -/
def getFileExtension (filename : List Char) : Option (List Char) :=
  let parts := splitOnChar '.' (filename.map lowerAscii)
  if 1 < parts.length then
    let e := parts.getLastD []
    if e = [] then none else some e
  else none

/-- `FileValidationUtil.isLikelyMislabeled`: the fixed commonly-mislabeled
table — `application/octet-stream` or `text/plain` reported for a `pdf` or
`docx` extension. -/
def isLikelyMislabeled (detectedMime : String) (extension : List Char) : Bool :=
  (detectedMime = "application/octet-stream" || detectedMime = "text/plain") &&
  (extension = "pdf".data || extension = "docx".data)

def dangerousExtensions : List String :=
  ["exe", "bat", "cmd", "com", "scr", "pif", "vbs", "js", "jar", "app", "dmg",
   "pkg", "deb", "rpm", "sh", "bash", "ps1", "msi", "bin", "run", "action",
   "workflow"]

/-- `FileValidationUtil.matchesSignature` applied to the first four bytes. -/
def sigMatch (magic : List Nat) (sig : List Nat) : Bool :=
  decide (sig.length ≤ magic.length) && (sig.zip magic).all fun p => p.1 = p.2

/-- Case-insensitive ASCII prefix test. -/
def headMatchCI (pat : List Char) (l : List Char) : Bool :=
  match pat, l with
  | [], _ => true
  | _ :: _, [] => false
  | p :: ps, c :: cs => lowerAscii p = lowerAscii c && headMatchCI ps cs

/-- Case-sensitive prefix test. -/
def headMatch (pat : List Char) (l : List Char) : Bool :=
  match pat, l with
  | [], _ => true
  | _ :: _, [] => false
  | p :: ps, c :: cs => p = c && headMatch ps cs

/-- The script-content patterns tested against the head of a `.txt` file:
`/^\s*<script/i`, `/^\s*#!\s*\/bin/`, `/^\s*@echo\s+off/i`,
`/^\s*powershell/i`. -/
def scriptPatternHit (content : List Char) : Bool :=
  let t := content.dropWhile wsChar
  headMatchCI "<script".data t ||
  (match t with
   | '#' :: '!' :: r => headMatch "/bin".data (r.dropWhile wsChar)
   | _ => false) ||
  (headMatchCI "@echo".data t &&
    (let r := t.drop 5
     match r with
     | d :: _ => wsChar d && headMatchCI "off".data (r.dropWhile wsChar)
     | [] => false)) ||
  headMatchCI "powershell".data t

/-- `FileValidationUtil.checkFileSecurity`: dangerous-extension denylist,
executable magic bytes, script heuristics for `.txt`.  `utf8Decode` stands
for `buffer.toString("utf8", 0, min(1000, length))`. -/
def checkFileSecurity (utf8Decode : List Nat → List Char)
    (buffer : List Nat) (filename : List Char) : List String × List String :=
  let ext := getFileExtension filename
  let extErrors :=
    match ext with
    | some e =>
      if dangerousExtensions.contains (String.mk e) then
        ["File type " ++ String.mk e ++ " is not allowed for security reasons"]
      else []
    | none => []
  let magicErrors :=
    if 4 ≤ buffer.length then
      let magic := buffer.take 4
      if sigMatch magic [0x4d, 0x5a] then
        ["File contains executable code (PE (Windows executable))"]
      else if sigMatch magic [0x7f, 0x45, 0x4c, 0x46] then
        ["File contains executable code (ELF (Linux executable))"]
      else if sigMatch magic [0xfe, 0xed, 0xfa, 0xce] then
        ["File contains executable code (Mach-O (macOS executable))"]
      else if sigMatch magic [0xce, 0xfa, 0xed, 0xfe] then
        ["File contains executable code (Mach-O (macOS executable))"]
      else if sigMatch magic [0xcf, 0xfa, 0xed, 0xfe] then
        ["File contains executable code (Mach-O (macOS executable))"]
      else []
    else []
  let scriptWarnings :=
    if ext = some "txt".data ∧ 0 < buffer.length then
      if scriptPatternHit (utf8Decode (buffer.take 1000)) then
        ["Text file appears to contain script content"]
      else []
    else []
  (extErrors ++ magicErrors, scriptWarnings)

/-- Scan the decoded header for `%PDF-(\d+\.\d+)`; returns the parsed
version as (integer part, fraction digits value, fraction length). -/
def pdfVersionFrom : List Char → Option (ℕ × ℕ × ℕ)
  | [] => none
  | c :: r =>
    if headMatch "%PDF-".data (c :: r) then
      let v := (c :: r).drop 5
      let ds := v.takeWhile digitChar
      let v2 := v.dropWhile digitChar
      if ds ≠ [] then
        match v2 with
        | '.' :: v3 =>
          let fs := v3.takeWhile digitChar
          if fs ≠ [] then
            some (ds.foldl (fun a d => a * 10 + (d.toNat - 48)) 0,
              fs.foldl (fun a d => a * 10 + (d.toNat - 48)) 0, fs.length)
          else pdfVersionFrom r
        | _ => pdfVersionFrom r
      else pdfVersionFrom r
    else pdfVersionFrom r

/-- `parseFloat(major.minor) > 2.0` in exact integer arithmetic:
`ip + fp / 10^k > 2  ↔  2·10^k < ip·10^k + fp` (exact for the magnitudes a
PDF version string can carry, so it agrees with the float comparison). -/
def pdfVersionAbove2 (t : ℕ × ℕ × ℕ) : Bool :=
  2 * 10 ^ t.2.2 < t.1 * 10 ^ t.2.2 + t.2.1

/-- `validatePDFContent`: `%PDF` header required; a parsed version above 2.0
is only a warning.  (The warning text's number formatting is abbreviated; no
claim inspects it.) -/
def validatePDFContent (buffer : List Nat) : List String × List String :=
  if buffer.take 4 = [37, 80, 68, 70] ∧ 4 ≤ buffer.length then
    let headerLine := asciiDecode (buffer.take 20)
    match pdfVersionFrom headerLine with
    | some t =>
      if pdfVersionAbove2 t then ([], ["PDF version above 2.0 may not be fully supported"])
      else ([], [])
    | none => ([], [])
  else (["Invalid PDF file structure"], [])

/-- `validateWordContent`: ZIP local-file/empty-archive signature, else the
OLE compound-file signature, else an error. -/
def validateWordContent (buffer : List Nat) : List String × List String :=
  if 4 ≤ buffer.length then
    let zipSig := buffer.take 4
    if zipSig = [0x50, 0x4b, 0x03, 0x04] ∨ zipSig = [0x50, 0x4b, 0x07, 0x08] then ([], [])
    else if buffer.take 8 = [0xd0, 0xcf, 0x11, 0xe0, 0xa1, 0xb1, 0x1a, 0xe1] then ([], [])
    else (["Invalid Word document structure"], [])
  else ([], [])

/-- `validateTextContent`: warn when more than 10% of the first 1000 bytes
are control bytes other than tab/LF/CR. -/
def validateTextContent (buffer : List Nat) : List String × List String :=
  let sample := buffer.take 1000
  let nonText := (sample.filter fun b => b < 32 ∧ b ≠ 9 ∧ b ≠ 10 ∧ b ≠ 13).length
  if sample.length < 10 * nonText then
    ([], ["File may contain binary data despite .txt extension"])
  else ([], [])

/-- `validateRTFContent`: the decoded header must start with the RTF magic
(`\x7b\\rtf`). -/
def validateRTFContent (buffer : List Nat) : List String × List String :=
  if headMatch (Char.ofNat 123 :: '\\' :: 'r' :: 't' :: 'f' :: [])
      (asciiDecode (buffer.take 10)) then ([], [])
  else (["Invalid RTF file structure"], [])

/-- `validateFileContent` dispatch (non-supported extensions hit no case). -/
def validateFileContent (buffer : List Nat) (ext : List Char) : List String × List String :=
  if ext = "pdf".data then validatePDFContent buffer
  else if ext = "docx".data ∨ ext = "doc".data then validateWordContent buffer
  else if ext = "txt".data then validateTextContent buffer
  else if ext = "rtf".data then validateRTFContent buffer
  else ([], [])

structure FVMeta where
  filename : List Char
  fileSize : Nat
  fileType : String
deriving Repr

structure FileValidationResult where
  valid : Bool
  errors : List String
  warnings : List String
  metadata : Option FVMeta := none
deriving Repr

/-- `FileValidationUtil.validateFile` (the `Buffer` path; `sniff` is
`fileTypeFromBuffer`, `utf8Decode` is `Buffer.toString("utf8", ...)`).  The
oversize message's human-readable size formatting is abbreviated; no claim
inspects it. -/
def validateFile (sniff : List Nat → Option String) (utf8Decode : List Nat → List Char)
    (buffer : List Nat) (filename : Option (List Char)) (options : ValidationOptions) :
    FileValidationResult :=
  let maxSize :=
    match options.maxFileSize with
    | some n => if n = 0 then MAX_FILE_SIZE else n
    | none => MAX_FILE_SIZE
  let allowedTypes := options.allowedTypes.getD SUPPORTED_FILE_TYPES
  let strictMime := options.strictMimeTypeCheck.getD true
  let name :=
    match filename with
    | some f => if f = [] then "unknown".data else f
    | none => "unknown".data
  let size := buffer.length
  let basicErrors :=
    (if size = 0 then ["File is empty"] else []) ++
    (if maxSize < size then
      ["File size exceeds maximum allowed size"] else [])
  let ext := getFileExtension name
  let extErrors :=
    match ext with
    | none => ["File must have an extension"]
    | some e =>
      if allowedTypes.contains (String.mk e) then []
      else ["File type " ++ String.mk e ++ " is not supported"]
  let mimeResult : List String × List String :=
    if 0 < size then
      match ext, sniff buffer with
      | some e, some dm =>
        if strictMime then
          match MIME_TYPE_MAP (String.mk e) with
          | some expected =>
            if expected.contains dm then ([], [])
            else if isLikelyMislabeled dm e then
              (["File content (" ++ dm ++ ") does not match extension (." ++ String.mk e ++ ")"],
               [])
            else
              ([], ["File content type (" ++ dm ++ ") differs from expected type for ." ++
                String.mk e ++ " files"])
          | none => ([], [])
        else ([], [])
      | some e, none =>
        if strictMime ∧ (MIME_TYPE_MAP (String.mk e)).isSome then
          ([], ["Could not verify file type for ." ++ String.mk e ++ " file"])
        else ([], [])
      | none, _ => ([], [])
    else ([], [])
  let security :=
    if options.allowExecutables.getD false then ([], [])
    else checkFileSecurity utf8Decode buffer name
  let errorsSoFar := basicErrors ++ extErrors ++ mimeResult.1 ++ security.1
  let content :=
    match ext with
    | some e => if errorsSoFar = [] then validateFileContent buffer e else ([], [])
    | none => ([], [])
  let errors := errorsSoFar ++ content.1
  let warnings := mimeResult.2 ++ security.2 ++ content.2
  { valid := errors = []
    errors := errors
    warnings := warnings
    metadata := some ⟨name, size, (ext.map String.mk).getD "unknown"⟩ }

/-! ## The document status route -/

/-- `estimateProcessingTime` of the status route: per-type seconds per MB
(default 2.0), at least 10 seconds, ceiling-rounded. -/
def timePerMBOf (ft : String) : ℚ :=
  if ft = "pdf" then 3
  else if ft = "docx" then 2
  else if ft = "doc" then 5 / 2
  else if ft = "txt" then 1
  else if ft = "rtf" then 3 / 2
  else 2

def estimateProcessingTime (fileSize : Nat) (ft : String) : ℤ :=
  ⌈max (10 : ℚ) ((fileSize : ℚ) / (1024 * 1024) * timePerMBOf ft)⌉

/-- `Math.round` (half-up). -/
def jsRound (q : ℚ) : ℤ := ⌊q + 1 / 2⌋

inductive DocStatus
  | uploaded | processing | completed | failed | other
deriving DecidableEq, Repr

structure RouteProgress where
  stage : Stage
  progress : ℤ
  message : String
  estimatedTimeRemaining : Option ℚ := none
  error : Option ProcessingError := none
deriving Repr

/-- `mapDocumentStatusToProgress`.  `elapsedMs` is
`now - (processingStartedAt ?? createdTime)` in milliseconds. -/
def mapDocumentStatusToProgress (status : DocStatus) (fileSize : Nat) (ft : String)
    (chunkCount : Nat) (elapsedMs : ℤ) : RouteProgress :=
  let elapsedSeconds : ℤ := elapsedMs.fdiv 1000
  match status with
  | .uploaded =>
    { stage := .uploading, progress := 100
      message := "File uploaded successfully. Starting processing..."
      estimatedTimeRemaining := some 30 }
  | .processing =>
    let total := estimateProcessingTime fileSize ft
    let pct : ℚ := min 95 ((elapsedSeconds : ℚ) / (total : ℚ) * 100)
    let stage : Stage :=
      if 60 < pct then .analyzing else if 30 < pct then .chunking else .extracting
    let msg :=
      if 60 < pct then "Running AI analysis on content..."
      else if 30 < pct then "Creating document chunks for analysis..."
      else "Extracting text from document..."
    { stage := stage, progress := jsRound pct, message := msg
      estimatedTimeRemaining := some (max 5 ((total : ℚ) - (elapsedSeconds : ℚ))) }
  | .completed =>
    { stage := .completed, progress := 100
      message := "Document processed successfully! Created " ++ toString chunkCount ++
        " chunks." }
  | .failed =>
    { stage := .failed, progress := 0
      message := "Document processing failed. Please try uploading again."
      error := some ⟨"PROCESSING_FAILED",
        "Document processing failed due to an internal error", true⟩ }
  | .other =>
    { stage := .uploading, progress := 0, message := "Starting document processing..." }

instance exceptDecEq {α β : Type} [DecidableEq α] [DecidableEq β] :
    DecidableEq (Except α β) := fun a b =>
  match a, b with
  | .ok x, .ok y =>
    if h : x = y then .isTrue (by rw [h]) else .isFalse (by simp [h])
  | .error x, .error y =>
    if h : x = y then .isTrue (by rw [h]) else .isFalse (by simp [h])
  | .ok _, .error _ => .isFalse (by simp)
  | .error _, .ok _ => .isFalse (by simp)

/-! ## Basic whitespace/trim lemmas -/

/-- "Ink": the list contains a non-whitespace character. -/
def hasInk (l : List Char) : Bool := l.any fun c => !wsChar c

theorem hasInk_reverse (l : List Char) : hasInk l.reverse = hasInk l := by
  simp [hasInk]

theorem hasInk_cons (c : Char) (r : List Char) :
    hasInk (c :: r) = (!wsChar c || hasInk r) := by
  simp [hasInk]

theorem hasInk_dropWhile {l : List Char} (h : hasInk l = true) :
    hasInk (l.dropWhile wsChar) = true := by
  induction l with
  | nil => simpa [hasInk] using h
  | cons c r ih =>
    rw [List.dropWhile]
    by_cases hw : wsChar c = true
    · simp only [hw]
      apply ih
      rw [hasInk_cons, hw] at h
      simpa using h
    · simp only [eq_false_of_ne_true hw]
      exact h

theorem trimL_ne_nil {l : List Char} (h : hasInk l = true) : trimL l ≠ [] := by
  intro hnil
  have := hasInk_dropWhile h
  rw [trimL] at hnil
  rw [hnil] at this
  simp [hasInk] at this

theorem hasInk_trimR {l : List Char} (h : hasInk l = true) : hasInk (trimR l) = true := by
  rw [trimR, hasInk_reverse]
  exact hasInk_dropWhile (by rwa [hasInk_reverse])

theorem trimStr_ne_nil {l : List Char} (h : hasInk l = true) : trimStr l ≠ [] :=
  trimL_ne_nil (hasInk_trimR h)

theorem dropWhile_sublist' (p : Char → Bool) (l : List Char) :
    (l.dropWhile p).Sublist l := by
  induction l with
  | nil => simp [List.dropWhile]
  | cons c r ih =>
    rw [List.dropWhile]
    split
    · exact ih.cons c
    · simp

theorem hasInk_of_trimStr_ne {l : List Char} (h : trimStr l ≠ []) : hasInk l = true := by
  by_contra hi
  apply h
  rw [trimStr, trimL, trimR]
  simp [hasInk] at hi
  have h1 : l.reverse.dropWhile wsChar = [] := by
    rw [List.dropWhile_eq_nil_iff]
    intro c hc
    exact hi c (by simpa using hc)
  rw [h1]
  simp [List.dropWhile]

theorem dropWhile_head?_not (p : Char → Bool) :
    ∀ (l : List Char) (c : Char), (l.dropWhile p).head? = some c → p c = false := by
  intro l
  induction l with
  | nil => simp [List.dropWhile]
  | cons a r ih =>
    intro c hc
    rw [List.dropWhile] at hc
    by_cases hp : p a = true
    · rw [hp] at hc
      exact ih c hc
    · rw [eq_false_of_ne_true hp] at hc
      simp at hc
      subst hc
      exact eq_false_of_ne_true hp

theorem trimStr_head?_not_ws (l : List Char) (c : Char)
    (h : (trimStr l).head? = some c) : wsChar c = false := by
  rw [trimStr, trimL] at h
  exact dropWhile_head?_not wsChar (trimR l) c h

theorem trimR_reverse (l : List Char) :
    (trimR l).reverse = l.reverse.dropWhile wsChar := by
  rw [trimR, List.reverse_reverse]

theorem trimR_getLast?_not_ws (l : List Char) (c : Char)
    (h : (trimR l).getLast? = some c) : wsChar c = false := by
  rw [← List.head?_reverse, trimR_reverse] at h
  exact dropWhile_head?_not wsChar l.reverse c h

theorem getLast?_cons_ne {c : Char} {r : List Char} (h : r ≠ []) :
    (c :: r).getLast? = r.getLast? := by
  cases r with
  | nil => exact absurd rfl h
  | cons d s => rfl

theorem trimL_getLast? (l : List Char) (h : trimL l ≠ []) :
    (trimL l).getLast? = l.getLast? := by
  rw [trimL] at h ⊢
  induction l with
  | nil => simp at h
  | cons c r ih =>
    rw [List.dropWhile] at h ⊢
    by_cases hp : wsChar c = true
    · rw [hp] at h ⊢
      have hr : r ≠ [] := by
        intro he
        rw [he] at h
        simp [List.dropWhile] at h
      rw [ih h, getLast?_cons_ne hr]
    · rw [eq_false_of_ne_true hp]

theorem trimStr_getLast?_not_ws (l : List Char) (c : Char)
    (h : (trimStr l).getLast? = some c) : wsChar c = false := by
  by_cases hne : trimL (trimR l) = []
  · rw [trimStr, hne] at h
    simp at h
  · rw [trimStr, trimL_getLast? (trimR l) hne] at h
    exact trimR_getLast?_not_ws l c h

/-- `trimStr` is idempotent (a trimmed string starts and ends without
whitespace, so trimming again changes nothing). -/
theorem dropWhile_head_false (p : Char → Bool) (l : List Char)
    (h : ∀ c, l.head? = some c → p c = false) : l.dropWhile p = l := by
  cases l with
  | nil => simp [List.dropWhile]
  | cons c r =>
    rw [List.dropWhile]
    rw [h c rfl]

theorem trimStr_idem (l : List Char) : trimStr (trimStr l) = trimStr l := by
  have h1 : trimL (trimStr l) = trimStr l :=
    dropWhile_head_false wsChar (trimStr l) (trimStr_head?_not_ws l)
  have h2 : trimR (trimStr l) = trimStr l := by
    have : (trimStr l).reverse.dropWhile wsChar = (trimStr l).reverse := by
      apply dropWhile_head_false
      intro c hc
      rw [List.head?_reverse] at hc
      exact trimStr_getLast?_not_ws l c hc
    rw [trimR, this, List.reverse_reverse]
  rw [trimStr, h2, h1]


/-! ## Claim theorems: the file validator (C1) -/

/-- C1: the claim states that for a (detected MIME, extension) disagreement,
a commonly-mislabeled pair (e.g. `application/octet-stream` for `.pdf`)
yields only a warning while any other pair yields a hard error.  The code
does the opposite: at a `%PDF-1.4` buffer named `file.pdf` sniffed as
`application/octet-stream`, `validateFile` records a hard error and
`valid = false` with no warning, while the same buffer sniffed as
`image/png` (not in the mislabeled table) yields `valid = true` with only a
warning.  The branches of `isLikelyMislabeled` are swapped relative to the
claim. -/
theorem c1_mislabeled_branches_swapped :
    (validateFile (fun _ => some "application/octet-stream") (fun _ => [])
        [37, 80, 68, 70, 45, 49, 46, 52, 10] (some "file.pdf".data) {}).valid = false ∧
    (validateFile (fun _ => some "application/octet-stream") (fun _ => [])
        [37, 80, 68, 70, 45, 49, 46, 52, 10] (some "file.pdf".data) {}).errors =
      ["File content (application/octet-stream) does not match extension (.pdf)"] ∧
    (validateFile (fun _ => some "application/octet-stream") (fun _ => [])
        [37, 80, 68, 70, 45, 49, 46, 52, 10] (some "file.pdf".data) {}).warnings = [] ∧
    isLikelyMislabeled "application/octet-stream" "pdf".data = true ∧
    (validateFile (fun _ => some "image/png") (fun _ => [])
        [37, 80, 68, 70, 45, 49, 46, 52, 10] (some "file.pdf".data) {}).valid = true ∧
    (validateFile (fun _ => some "image/png") (fun _ => [])
        [37, 80, 68, 70, 45, 49, 46, 52, 10] (some "file.pdf".data) {}).warnings =
      ["File content type (image/png) differs from expected type for .pdf files"] ∧
    isLikelyMislabeled "image/png" "pdf".data = false := by
  decide

/-! ## Claim theorems: the orchestrator (C2, C3) -/

/-- C2: `processDocument` always returns a `ProcessingResult`: either
`success = true` with extracted text, chunks and metadata attached and no
error, or `success = false` with an attached `ProcessingError`.  Every
`throw` of the body is routed through the single `catch`, so no exception
escapes (the embedding is a total function by construction). -/
theorem c2_processDocument_returns_result (deps : ExtDeps) (o : ChunkingOptions)
    (buffer : List Nat) (filename : List Char) :
    ((processDocument deps o buffer filename).1.success = true ∧
      ((processDocument deps o buffer filename).1.extractedText).isSome = true ∧
      ((processDocument deps o buffer filename).1.chunks).isSome = true ∧
      ((processDocument deps o buffer filename).1.metadata).isSome = true ∧
      (processDocument deps o buffer filename).1.error = none) ∨
    ((processDocument deps o buffer filename).1.success = false ∧
      ((processDocument deps o buffer filename).1.error).isSome = true) := by
  unfold processDocument
  dsimp only
  split
  · right; simp
  · split
    · right; simp
    · split
      · right; simp
      · split
        · right; simp
        · split
          · right; simp
          · left; simp

/-- Concrete oracle bundle used by the witnesses: content sniffing finds
nothing, the PDF/Word libraries are unavailable, UTF-8 decoding maps bytes to
code points. -/
def witnessDeps : ExtDeps :=
  { sniff := fun _ => none
    pdfParse := fun _ => .error (.js "pdf-parse unavailable")
    mammoth := fun _ => .error (.js "mammoth unavailable")
    utf8Decode := fun b => b.map Char.ofNat
    sha256 := fun _ => "h"
    elapsedMs := 0 }

/-- C3: whenever validation fails, `processDocument` returns
`success = false` with a `VALIDATION_FAILED` error, emits a `failed`
progress event, and the orchestrator's extraction and chunking stages are
never invoked (the stage-call trace is empty). -/
theorem c3_validation_failure_short_circuits (deps : ExtDeps) (o : ChunkingOptions)
    (buffer : List Nat) (filename : List Char)
    (h : (tesValidateFile deps buffer filename).valid = false) :
    (processDocument deps o buffer filename).1.success = false ∧
    (∃ e, (processDocument deps o buffer filename).1.error = some e ∧
      e.code = "VALIDATION_FAILED" ∧ e.retryable = false) ∧
    (∃ ev ∈ (processDocument deps o buffer filename).2.1, ev.stage = Stage.failed) ∧
    (processDocument deps o buffer filename).2.2 = [] := by
  unfold processDocument
  simp only [h, Bool.false_eq_true, not_false_eq_true, if_pos]
  exact ⟨trivial, ⟨_, rfl, rfl, rfl⟩, ⟨failedEvent (dpError "VALIDATION_FAILED"
    ("File validation failed: " ++ String.intercalate ", "
      (tesValidateFile deps buffer filename).errors)), by simp, rfl⟩, trivial⟩

/-- Witness for C3 at the concrete input of Scenario E: the empty buffer
named `a.txt`. -/
theorem c3_witness :
    (tesValidateFile witnessDeps [] "a.txt".data).valid = false ∧
    ((processDocument witnessDeps DEFAULT_CHUNKING_OPTIONS [] "a.txt".data).1.success = false ∧
      (∃ e, (processDocument witnessDeps DEFAULT_CHUNKING_OPTIONS [] "a.txt".data).1.error =
          some e ∧ e.code = "VALIDATION_FAILED" ∧ e.retryable = false) ∧
      (∃ ev ∈ (processDocument witnessDeps DEFAULT_CHUNKING_OPTIONS [] "a.txt".data).2.1,
        ev.stage = Stage.failed) ∧
      (processDocument witnessDeps DEFAULT_CHUNKING_OPTIONS [] "a.txt".data).2.2 = []) :=
  ⟨by decide,
   c3_validation_failure_short_circuits witnessDeps DEFAULT_CHUNKING_OPTIONS [] "a.txt".data
     (by decide)⟩

/-- The six MIME strings the sniffed-type switch of `detectFileType`
recognises. -/
def recognisedMimes : List String :=
  ["application/pdf",
   "application/vnd.openxmlformats-officedocument.wordprocessingml.document",
   "application/msword", "text/plain", "application/rtf", "text/rtf"]

/-- C4 (amended): when the sniffed MIME maps to no supported type and the
filename extension is none of pdf/docx/doc/txt/rtf, `extractText` fails —
but with `FILE_TYPE_DETECTION_FAILED`, not `UNKNOWN_FILE_TYPE`: the
`UNKNOWN_FILE_TYPE` error thrown inside `detectFileType`'s `try` is caught
by that method's own catch-all and re-wrapped. -/
theorem c4_unknown_type_is_wrapped (deps : ExtDeps) (buffer : List Nat)
    (filename : List Char)
    (hm : ∀ m ∈ deps.sniff buffer, recognisedMimes.contains m = false)
    (he : SUPPORTED_FILE_TYPES.contains (String.mk (jsPopExt filename)) = false) :
    extractText deps buffer filename =
      .error (.perr ⟨"FILE_TYPE_DETECTION_FAILED",
        "Failed to detect file type: " ++
          ("Cannot determine file type for " ++ String.mk filename), false⟩) := by
  have hext : detectByExtension filename =
      .error (.perr ⟨"UNKNOWN_FILE_TYPE",
        "Cannot determine file type for " ++ String.mk filename, false⟩) := by
    simp only [SUPPORTED_FILE_TYPES, List.contains_cons, Bool.or_eq_false_iff,
      List.contains_nil, beq_eq_false_iff_ne, ne_eq] at he
    rw [detectByExtension]
    have hch : ∀ s : List Char, String.mk (jsPopExt filename) ≠ String.mk s →
        jsPopExt filename ≠ s := by
      intro s hs hc
      exact hs (by rw [hc])
    rw [if_neg (hch _ he.1), if_neg (hch _ he.2.1), if_neg (hch _ he.2.2.1),
      if_neg (hch _ he.2.2.2.1), if_neg (hch _ he.2.2.2.2.1)]
  have hbody : detectFileTypeBody deps buffer filename =
      .error (.perr ⟨"UNKNOWN_FILE_TYPE",
        "Cannot determine file type for " ++ String.mk filename, false⟩) := by
    rw [detectFileTypeBody]
    cases hs : deps.sniff buffer with
    | none => exact hext
    | some m =>
      have := hm m (by rw [hs]; rfl)
      simp only [recognisedMimes, List.contains_cons, Bool.or_eq_false_iff,
        List.contains_nil, beq_eq_false_iff_ne, ne_eq] at this
      dsimp only
      rw [if_neg this.1, if_neg this.2.1, if_neg this.2.2.1, if_neg this.2.2.2.1]
      rw [if_neg (by simp [this.2.2.2.2.1, this.2.2.2.2.2.1])]
      exact hext
  have hdet : detectFileType deps buffer filename =
      .error (.perr ⟨"FILE_TYPE_DETECTION_FAILED",
        "Failed to detect file type: " ++
          ("Cannot determine file type for " ++ String.mk filename), false⟩) := by
    rw [detectFileType, hbody]
    rfl
  rw [extractText, hdet]
  rfl

/-- Witness for C4's amended theorem at a concrete input: three unsniffable
bytes named `file.xyz`. -/
theorem c4_witness :
    (∀ m ∈ witnessDeps.sniff [1, 2, 3], recognisedMimes.contains m = false) ∧
    SUPPORTED_FILE_TYPES.contains (String.mk (jsPopExt "file.xyz".data)) = false ∧
    extractText witnessDeps [1, 2, 3] "file.xyz".data =
      .error (.perr ⟨"FILE_TYPE_DETECTION_FAILED",
        "Failed to detect file type: " ++
          ("Cannot determine file type for " ++ String.mk "file.xyz".data),
        false⟩) :=
  ⟨by intro m hm; exact absurd hm (by simp [witnessDeps]),
   by decide,
   c4_unknown_type_is_wrapped witnessDeps [1, 2, 3] "file.xyz".data
     (by intro m hm; exact absurd hm (by simp [witnessDeps]))
     (by decide)⟩

/-- C4 counterexample: at the same concrete input the failure code is
`FILE_TYPE_DETECTION_FAILED`, which is not the `UNKNOWN_FILE_TYPE` the claim
states. -/
theorem c4_counterexample :
    extractText witnessDeps [1, 2, 3] "file.xyz".data =
      .error (.perr ⟨"FILE_TYPE_DETECTION_FAILED",
        "Failed to detect file type: Cannot determine file type for file.xyz",
        false⟩) ∧
    "FILE_TYPE_DETECTION_FAILED" ≠ "UNKNOWN_FILE_TYPE" := by
  constructor
  · decide
  · decide

/-- C10: chunking an empty or whitespace-only text does not return an empty
chunk list: it raises the `EMPTY_TEXT` `ProcessingError` with
`retryable = false` (re-thrown unchanged by `chunkDocument`'s catch). -/
theorem c10_empty_text_raises (svc : ChunkingOptions) (p : PartialChunkingOptions)
    (text : List Char) (h : trimStr text = []) :
    chunkDocument svc p text =
      .error ⟨"EMPTY_TEXT", "Cannot chunk empty text", false⟩ := by
  rw [chunkDocument]
  simp [h]

/-- Witness for C10 on a whitespace-only text with default options. -/
theorem c10_witness :
    trimStr "  ".data = [] ∧
    chunkDocument DEFAULT_CHUNKING_OPTIONS {} "  ".data =
      .error ⟨"EMPTY_TEXT", "Cannot chunk empty text", false⟩ :=
  ⟨by decide, c10_empty_text_raises DEFAULT_CHUNKING_OPTIONS {} "  ".data (by decide)⟩

/-- Case-sensitive "is prefix" check on character lists. -/
def startsWithList : List Char → List Char → Bool
  | [], _ => true
  | _ :: _, [] => false
  | p :: ps, c :: cs => p = c && startsWithList ps cs

/-- C9 (amended): the status route's estimated total time is the *ceiling*
of `max(10, sizeInMB × perTypeSecondsPerMB)` (the claim omits the ceiling),
with the per-type table as claimed; the reported stage is `extracting` when
the capped progress percentage is at most 30, `chunking` when it exceeds 30
up to 60, and `analyzing` when it exceeds 60. -/
theorem c9_estimate_ceiled_and_stage_thresholds (fileSize : Nat) (ft : String)
    (chunkCount : Nat) (elapsedMs : ℤ) :
    estimateProcessingTime fileSize ft =
      ⌈max (10 : ℚ) ((fileSize : ℚ) / (1024 * 1024) * timePerMBOf ft)⌉ ∧
    timePerMBOf "pdf" = 3 ∧ timePerMBOf "docx" = 2 ∧ timePerMBOf "doc" = 5 / 2 ∧
    timePerMBOf "txt" = 1 ∧ timePerMBOf "rtf" = 3 / 2 ∧ timePerMBOf "html" = 2 ∧
    (let pct : ℚ := min 95 ((elapsedMs.fdiv 1000 : ℚ) /
        (estimateProcessingTime fileSize ft : ℚ) * 100)
     let st := (mapDocumentStatusToProgress .processing fileSize ft chunkCount elapsedMs).stage
     (st = Stage.extracting ↔ pct ≤ 30) ∧
     (st = Stage.chunking ↔ 30 < pct ∧ pct ≤ 60) ∧
     (st = Stage.analyzing ↔ 60 < pct)) := by
  refine ⟨rfl, rfl, rfl, rfl, rfl, rfl, rfl, ?_⟩
  dsimp only [mapDocumentStatusToProgress]
  set pct : ℚ := min 95 ((elapsedMs.fdiv 1000 : ℚ) /
    (estimateProcessingTime fileSize ft : ℚ) * 100) with hpct
  by_cases h60 : 60 < pct
  · rw [if_pos h60]
    exact ⟨⟨fun hst => by simp at hst, fun hle => absurd h60 (by linarith)⟩,
           ⟨fun hst => by simp at hst, fun hc => absurd h60 (by linarith [hc.2])⟩,
           ⟨fun _ => h60, fun _ => rfl⟩⟩
  · rw [if_neg h60]
    push_neg at h60
    by_cases h30 : 30 < pct
    · rw [if_pos h30]
      exact ⟨⟨fun hst => by simp at hst, fun hle => absurd h30 (by linarith)⟩,
             ⟨fun _ => ⟨h30, h60⟩, fun _ => rfl⟩,
             ⟨fun hst => by simp at hst, fun hlt => absurd hlt (by linarith)⟩⟩
    · rw [if_neg h30]
      push_neg at h30
      exact ⟨⟨fun _ => h30, fun _ => rfl⟩,
             ⟨fun hst => by simp at hst, fun hc => absurd hc.1 (by linarith)⟩,
             ⟨fun hst => by simp at hst, fun hlt => absurd hlt (by linarith)⟩⟩

/-- C9 counterexample: for a 5.5 MB PDF the route reports 17 seconds, while
`max(10, sizeInMB × 3.0)` is 16.5 seconds — the code additionally applies
`Math.ceil`, so the claimed equality fails. -/
theorem c9_counterexample :
    estimateProcessingTime 5767168 "pdf" = 17 ∧
    ((17 : ℚ) ≠ max 10 (((5767168 : ℕ) : ℚ) / (1024 * 1024) * timePerMBOf "pdf")) := by
  have hv : ((5767168 : ℕ) : ℚ) / (1024 * 1024) * timePerMBOf "pdf" = 33 / 2 := by
    rw [show timePerMBOf "pdf" = 3 from rfl]
    norm_num
  have hmax : max (10 : ℚ) (33 / 2) = 33 / 2 := by
    rw [max_eq_right] <;> norm_num
  constructor
  · rw [estimateProcessingTime, hv, hmax]
    rw [Int.ceil_eq_iff]
    constructor <;> norm_num
  · rw [hv, hmax]
    norm_num

/-- C5 counterexample: a non-empty two-paragraph text for which
`chunkDocument` returns *zero* chunks — both assembled chunks fall below
`minChunkSize` and the filter's `chunks.length === 1` escape hatch does not
apply, so every chunk is dropped. -/
theorem c5_counterexample :
    trimStr "aa aa aa aa\n\nbb bb bb bb".data ≠ [] ∧
    chunkDocument ⟨5, 0, 100⟩ {} "aa aa aa aa\n\nbb bb bb bb".data = .ok [] := by
  constructor
  · decide
  · decide

/-- C6 counterexample: the minimum-size filter drops the first assembled
chunk, so the single returned chunk sits at list position 0 but carries
`index = 1` — the claimed `c[i].index == i` fails. -/
theorem c6_counterexample :
    (chunkDocument ⟨10, 0, 7⟩ {} "aa\n\nbb bb bb bb bb bb bb".data).map
      (fun cs => cs.map (·.index)) = .ok [1] ∧ (1 : Nat) ≠ 0 := by
  constructor
  · decide
  · decide

/-- C7 counterexample: with `maxTokens = 10` and `overlapTokens = 2` the
second of three returned chunks (not the last) carries 14 estimated tokens,
exceeding `maxTokens + overlapTokens = 12`: the overlap seed is taken in
whole units (here 4 tokens, already over the 2-token budget) and the unit
that forced the break is appended without a re-check. -/
theorem c7_counterexample :
    (chunkDocument ⟨10, 2, 0⟩ {} "aa aa aa\n\nbb bb bb bb bb bb bb\n\ncc".data).map
      (fun cs => cs.map (·.tokenCount)) = .ok [4, 14, 12] ∧ ¬ (14 ≤ 10 + 2) := by
  constructor
  · decide
  · decide

/-- C8 counterexample: `overlapTokens = 2 > 0` and four chunks are returned,
yet the third chunk (the list unit, oversized at 11 > maxTokens = 5, routed
through `splitLargeUnit`, whose inner loop resets the running chunk *without*
overlap) does not begin with any non-empty trailing segment of the second
chunk's content. -/
theorem c8_counterexample :
    (chunkDocument ⟨5, 2, 0⟩ {} "qq qq\n\n- aa aa aa\n- bb bb bb\n\ncc cc".data).map
      (fun cs => cs.map (·.content)) =
      .ok ["qq qq".data, "qq qq".data, "- aa aa aa\n- bb bb bb".data,
        "- aa aa aa\n- bb bb bb\n\ncc cc".data] ∧
    (∀ k, k < ("qq qq".data).length →
      startsWithList (("qq qq".data).drop k) "- aa aa aa\n- bb bb bb".data = false) := by
  constructor
  · decide
  · decide

/-! ## Ink preservation through `normalizeText` -/

theorem ws_of_spaceTab {c : Char} (h : spaceTab c = true) : wsChar c = true := by
  rw [spaceTab] at h
  rcases (Bool.or_eq_true _ _).mp h with h1 | h1 <;>
    (rw [decide_eq_true_eq] at h1; subst h1; decide)

theorem hasInk_normCRLF : ∀ l : List Char, hasInk l = true → hasInk (normCRLF l) = true := by
  intro l
  induction l using normCRLF.induct with
  | case1 => simp [normCRLF]
  | case2 r ih =>
    intro h
    rw [normCRLF]
    rw [hasInk_cons, hasInk_cons] at h
    have h1 : wsChar '\r' = true := by decide
    have h2 : wsChar '\n' = true := by decide
    simp [h1, h2] at h
    rw [hasInk_cons]
    simp [ih h]
  | case3 c r hne ih =>
    intro h
    have heq : normCRLF (c :: r) = c :: normCRLF r := by
      rw [normCRLF.eq_def]
      split
      · rename_i heq2
        simp at heq2
      · rename_i x1 r1 heq2
        injection heq2 with hc hr
        exact (hne r1 hc hr).elim
      · rename_i x1 c2 r2 hx heq2
        injection heq2 with hc hr
        rw [hc, hr]
    rw [hasInk_cons] at h
    rw [heq, hasInk_cons]
    rcases (Bool.or_eq_true _ _).mp h with hc | hr
    · simp [hc]
    · simp [ih hr]

theorem hasInk_normCR : ∀ l : List Char, hasInk l = true → hasInk (normCR l) = true := by
  intro l
  induction l with
  | nil => simp [hasInk, normCR]
  | cons c r ih =>
    intro h
    rw [hasInk_cons] at h
    rw [normCR, List.map_cons, hasInk_cons]
    rcases (Bool.or_eq_true _ _).mp h with hc | hr
    · have hcr : c ≠ '\r' := by
        intro he
        subst he
        exact absurd hc (by decide)
      rw [if_neg hcr]
      simp [hc]
    · have hmap : hasInk (normCR r) = true := ih hr
      rw [normCR] at hmap
      simp [hmap]

theorem hasInk_capNLAux : ∀ (l : List Char) (n : Nat),
    hasInk l = true → hasInk (capNLAux n l) = true := by
  intro l
  induction l with
  | nil => simp [hasInk, capNLAux]
  | cons c r ih =>
    intro n h
    rw [hasInk_cons] at h
    rw [capNLAux]
    by_cases hc : c = '\n'
    · subst hc
      have hr : hasInk r = true := by
        rcases (Bool.or_eq_true _ _).mp h with hck | hr
        · exact absurd hck (by decide)
        · exact hr
      rw [if_pos rfl]
      by_cases hn : n < 2
      · rw [if_pos hn, hasInk_cons]
        simp [ih _ hr]
      · rw [if_neg hn]
        exact ih _ hr
    · rw [if_neg hc, hasInk_cons]
      rcases (Bool.or_eq_true _ _).mp h with hck | hr
      · simp [hck]
      · simp [ih _ hr]

theorem hasInk_collapseST_both : ∀ l : List Char,
    (hasInk l = true → hasInk (collapseST l) = true) ∧
    (hasInk l = true → hasInk (collapseSkipST l) = true) := by
  intro l
  induction l with
  | nil => simp [hasInk, collapseST, collapseSkipST]
  | cons c r ih =>
    constructor
    · intro h
      rw [hasInk_cons] at h
      rw [collapseST]
      by_cases hst : spaceTab c = true
      · rw [if_pos hst, hasInk_cons]
        have hr : hasInk r = true := by
          rcases (Bool.or_eq_true _ _).mp h with hc | hr
          · rw [ws_of_spaceTab hst] at hc
            exact absurd hc (by decide)
          · exact hr
        simp [ih.2 hr]
      · rw [if_neg hst, hasInk_cons]
        rcases (Bool.or_eq_true _ _).mp h with hc | hr
        · simp [hc]
        · simp [ih.1 hr]
    · intro h
      rw [hasInk_cons] at h
      rw [collapseSkipST]
      by_cases hst : spaceTab c = true
      · rw [if_pos hst]
        have hr : hasInk r = true := by
          rcases (Bool.or_eq_true _ _).mp h with hc | hr
          · rw [ws_of_spaceTab hst] at hc
            exact absurd hc (by decide)
          · exact hr
        exact ih.2 hr
      · rw [if_neg hst, hasInk_cons]
        rcases (Bool.or_eq_true _ _).mp h with hc | hr
        · simp [hc]
        · simp [ih.1 hr]

theorem hasInk_trimStr {l : List Char} (h : hasInk l = true) :
    hasInk (trimStr l) = true :=
  hasInk_dropWhile (hasInk_trimR h)

theorem hasInk_normalizeText {l : List Char} (h : hasInk l = true) :
    hasInk (normalizeText l) = true := by
  rw [normalizeText, capNL]
  exact hasInk_trimStr ((hasInk_collapseST_both _).1
    (hasInk_capNLAux _ 0 (hasInk_normCR _ (hasInk_normCRLF _ h))))

/-! ## Ink through the paragraph split -/

theorem exInk_consFirst_of_mem {c : Char} {ps : List (List Char)}
    (h : ∃ p ∈ ps, hasInk p = true) : ∃ q ∈ consFirst c ps, hasInk q = true := by
  obtain ⟨p, hp, hink⟩ := h
  cases ps with
  | nil => exact absurd hp (by simp)
  | cons p0 rest =>
    rcases List.mem_cons.mp hp with he | hm
    · subst he
      exact ⟨c :: p, by simp [consFirst], by rw [hasInk_cons]; simp [hink]⟩
    · exact ⟨p, by simp [consFirst, hm], hink⟩

theorem exInk_consFirst_of_ink {c : Char} (ps : List (List Char))
    (hc : wsChar c = false) : ∃ q ∈ consFirst c ps, hasInk q = true := by
  cases ps with
  | nil => exact ⟨[c], by simp [consFirst], by rw [hasInk_cons]; simp [hc]⟩
  | cons p0 rest =>
    exact ⟨c :: p0, by simp [consFirst], by rw [hasInk_cons]; simp [hc]⟩


theorem splitParasAux_true_cons {c : Char} (r : List Char) (hc : c ≠ '\n') :
    splitParasAux true (c :: r) = consFirst c (splitParasAux false r) := by
  rw [splitParasAux.eq_def]
  split
  case h_1 => rename_i heq; exact absurd heq (by simp)
  case h_2 => rename_i hf heq; injection heq with h1 h2; exact absurd h1 hc
  case h_3 =>
    rename_i c1 r1 hx hf heq
    injection heq with h1 h2
    rw [h1, h2]
  all_goals (rename_i hf heq; exact absurd hf (by decide))

theorem splitParasAux_false_nlnl (r : List Char) :
    splitParasAux false ('\n' :: '\n' :: r) = [] :: splitParasAux true r := rfl

theorem splitParasAux_false_nlc {c : Char} (r : List Char) (hc : c ≠ '\n') :
    splitParasAux false ('\n' :: c :: r) =
      consFirst '\n' (consFirst c (splitParasAux false r)) := by
  rw [splitParasAux.eq_def]
  split
  case h_1 => rename_i heq; exact absurd heq (by simp)
  case h_2 => rename_i hf heq; exact absurd hf (by decide)
  case h_3 => rename_i c1 r1 hx hf heq; exact absurd hf (by decide)
  case h_4 =>
    rename_i r1 hf heq
    injection heq with h1 h2
    injection h2 with h3 h4
    exact absurd h3 hc
  case h_5 =>
    rename_i c1 r1 hx hf heq
    injection heq with h1 h2
    injection h2 with h3 h4
    rw [← h3, ← h4]
  case h_6 =>
    rename_i hf heq
    injection heq with h1 h2
    exact absurd h2 (by simp)
  case h_7 =>
    rename_i c1 r1 hx2 hx1 hx0 hf heq
    injection heq with h1 h2
    exact (hx1 c r h1.symm h2.symm).elim

theorem splitParasAux_false_cons {c : Char} (r : List Char) (hc : c ≠ '\n') :
    splitParasAux false (c :: r) = consFirst c (splitParasAux false r) := by
  rw [splitParasAux.eq_def]
  split
  case h_1 => rename_i heq; exact absurd heq (by simp)
  case h_2 => rename_i hf heq; exact absurd hf (by decide)
  case h_3 => rename_i c1 r1 hx hf heq; exact absurd hf (by decide)
  case h_4 =>
    rename_i r1 hf heq
    injection heq with h1 h2
    exact absurd h1 hc
  case h_5 =>
    rename_i c1 r1 hx hf heq
    injection heq with h1 h2
    exact absurd h1 hc
  case h_6 =>
    rename_i hf heq
    injection heq with h1 h2
    exact absurd h1 hc
  case h_7 =>
    rename_i c1 r1 hx2 hx1 hx0 hf heq
    injection heq with h1 h2
    rw [h1, h2]

theorem exInk_splitParasAux :
    ∀ (flag : Bool) (l : List Char), hasInk l = true →
      ∃ p ∈ splitParasAux flag l, hasInk p = true := by
  intro flag l
  induction flag, l using splitParasAux.induct with
  | case1 b => intro h; exact absurd h (by simp [hasInk])
  | case2 r ih =>
    intro h
    rw [hasInk_cons] at h
    rw [(by decide : wsChar '\n' = true)] at h
    simp only [Bool.not_true, Bool.false_or] at h
    exact ih h
  | case3 c r hne ih =>
    intro h
    have hc : c ≠ '\n' := fun he => hne he
    rw [splitParasAux_true_cons r hc]
    rw [hasInk_cons] at h
    rcases Bool.or_eq_true_iff.mp h with hcink | hrink
    · exact exInk_consFirst_of_ink _ (by simpa using hcink)
    · exact exInk_consFirst_of_mem (ih hrink)
  | case4 r ih =>
    intro h
    rw [hasInk_cons, hasInk_cons] at h
    rw [(by decide : wsChar '\n' = true)] at h
    simp only [Bool.not_true, Bool.false_or] at h
    obtain ⟨p, hp, hink⟩ := ih h
    exact ⟨p, by rw [splitParasAux_false_nlnl]; exact List.mem_cons_of_mem _ hp, hink⟩
  | case5 c r hne ih =>
    intro h
    have hc : c ≠ '\n' := fun he => hne he
    rw [splitParasAux_false_nlc r hc]
    rw [hasInk_cons, hasInk_cons] at h
    rw [(by decide : wsChar '\n' = true)] at h
    simp only [Bool.not_true, Bool.false_or] at h
    rcases Bool.or_eq_true_iff.mp h with hcink | hrink
    · exact exInk_consFirst_of_mem (exInk_consFirst_of_ink _ (by simpa using hcink))
    · exact exInk_consFirst_of_mem (exInk_consFirst_of_mem (ih hrink))
  | case6 =>
    intro h
    exact absurd h (by decide)
  | case7 c r hx1 hx2 hx3 ih =>
    intro h
    have hc : c ≠ '\n' := by
      intro he
      cases r with
      | nil => exact hx3 he rfl
      | cons c1 r1 => exact hx2 c1 r1 he rfl
    rw [splitParasAux_false_cons r hc]
    rw [hasInk_cons] at h
    rcases Bool.or_eq_true_iff.mp h with hcink | hrink
    · exact exInk_consFirst_of_ink _ (by simpa using hcink)
    · exact exInk_consFirst_of_mem (ih hrink)

theorem exInk_splitParas {l : List Char} (h : hasInk l = true) :
    ∃ p ∈ splitParas l, hasInk p = true :=
  exInk_splitParasAux false l h

theorem hasInk_ne_nil {l : List Char} (h : hasInk l = true) : l ≠ [] := by
  intro he; subst he; simp [hasInk] at h

theorem trimStr_eq_nil_of_ink_false {l : List Char} (h : hasInk l = false) :
    trimStr l = [] := by
  have hall : ∀ c ∈ l, wsChar c = true := by
    intro c hc
    by_contra hw
    have : hasInk l = true := by
      simp only [hasInk, List.any_eq_true]
      exact ⟨c, hc, by simpa using hw⟩
    rw [this] at h; exact absurd h (by simp)
  have h1 : l.reverse.dropWhile wsChar = [] :=
    List.dropWhile_eq_nil_iff.mpr fun c hc => hall c (List.mem_reverse.mp hc)
  simp [trimStr, trimR, trimL, h1]

theorem trimStr_ne_nil_iff_ink (l : List Char) : trimStr l ≠ [] ↔ hasInk l = true := by
  constructor
  · intro h
    by_contra hni
    exact h (trimStr_eq_nil_of_ink_false (by simpa using hni))
  · intro h
    exact hasInk_ne_nil (hasInk_trimStr h)

theorem buildUnits_ne_nil (svcMax : Nat) :
    ∀ (paras : List (List Char)) (pos : Nat),
      (∃ pa ∈ paras, trimStr pa ≠ [] ∧ estimateTokenCount (trimStr pa) ≤ svcMax) →
      buildUnits svcMax pos paras ≠ [] := by
  intro paras
  induction paras with
  | nil => intro pos h; obtain ⟨pa, hm, _⟩ := h; exact absurd hm (by simp)
  | cons p rest ih =>
    intro pos h
    obtain ⟨pa, hm, hne, hest⟩ := h
    rcases List.mem_cons.mp hm with he | hm'
    · subst he
      rw [buildUnits, if_neg hne, if_neg (fun hc => absurd hc.2 (by omega))]
      simp
    · rw [buildUnits]
      by_cases hp : trimStr p = []
      · rw [if_pos hp]
        exact ih pos ⟨pa, hm', hne, hest⟩
      · rw [if_neg hp]
        dsimp only
        split
        · exact List.append_ne_nil_of_right_ne_nil _ (ih _ ⟨pa, hm', hne, hest⟩)
        · simp

theorem stepUnit_cur_ne_nil (o : ChunkingOptions) (st : ChunkState) (u : SemanticUnit)
    (hu : u.tokenCount ≤ o.maxTokens) : (stepUnit o st u).cur ≠ [] := by
  rw [stepUnit]
  dsimp only
  rw [if_neg (by omega)]
  simp

theorem createChunksRaw_ne_nil (o : ChunkingOptions) (units : List SemanticUnit)
    (hne : units ≠ []) (hu : ∀ u ∈ units, u.tokenCount ≤ o.maxTokens) :
    createChunksRaw o units ≠ [] := by
  rcases List.eq_nil_or_concat units with h | ⟨us, ulast, rfl⟩
  · exact absurd h hne
  · rw [createChunksRaw]
    rw [List.concat_eq_append, List.foldl_append]
    simp only [List.foldl_cons, List.foldl_nil]
    rw [if_pos (stepUnit_cur_ne_nil o _ ulast (hu ulast (by simp)))]
    simp

theorem filter_eq_self_of_len_one {raw : List DocumentChunk} {m : Nat}
    (h : raw.length = 1) :
    (raw.filter fun c => m ≤ c.tokenCount || raw.length = 1) = raw :=
  List.filter_eq_self.mpr fun c _ => by simp [h]

theorem filter_ne_nil_of_big {raw : List DocumentChunk} {m : Nat}
    (h : ∃ c ∈ raw, m ≤ c.tokenCount) :
    (raw.filter fun c => m ≤ c.tokenCount || raw.length = 1) ≠ [] := by
  obtain ⟨c, hc, hm⟩ := h
  intro he
  have : c ∈ raw.filter fun c => m ≤ c.tokenCount || raw.length = 1 :=
    List.mem_filter.mpr ⟨hc, by simp [hm]⟩
  rw [he] at this
  exact absurd this (by simp)

/-- **C5.** Corrected minimum-chunk law.  For non-blank text whose paragraphs
and semantic units all fit the token budget, assembly produces a non-empty
raw chunk list and `chunkDocument` returns it filtered by
`tokenCount >= minChunkSize || chunks.length === 1`: when assembly produced
exactly one chunk it is always returned, and the result is non-empty
whenever some raw chunk reaches `minChunkSize` — but the filter, not the
claimed unconditional minimum-one-chunk law, governs the final list (the
separate counterexample shows it can drop every chunk). -/
theorem c5_amended_min_chunk_law (svc : ChunkingOptions) (p : PartialChunkingOptions)
    (text : List Char) (h : trimStr text ≠ [])
    (hpara : ∀ pa ∈ splitParas (normalizeText text),
      estimateTokenCount (trimStr pa) ≤ svc.maxTokens)
    (hunits : ∀ u ∈ splitIntoSemanticUnits svc.maxTokens (normalizeText text),
      u.tokenCount ≤ (mergeOptions svc p).maxTokens) :
    ∃ raw : List DocumentChunk,
      raw ≠ [] ∧
      chunkDocument svc p text =
        .ok (raw.filter fun c =>
          (mergeOptions svc p).minChunkSize ≤ c.tokenCount || raw.length = 1) ∧
      (raw.length = 1 → chunkDocument svc p text = .ok raw) ∧
      ((∃ c ∈ raw, (mergeOptions svc p).minChunkSize ≤ c.tokenCount) →
        ∀ cs, chunkDocument svc p text = .ok cs → cs ≠ []) := by
  have hink : hasInk text = true := (trimStr_ne_nil_iff_ink text).mp h
  obtain ⟨pa, hpm, hpink⟩ := exInk_splitParas (hasInk_normalizeText hink)
  have hune : splitIntoSemanticUnits svc.maxTokens (normalizeText text) ≠ [] := by
    rw [splitIntoSemanticUnits]
    exact buildUnits_ne_nil svc.maxTokens _ 0
      ⟨pa, hpm, (trimStr_ne_nil_iff_ink pa).mpr hpink, hpara pa hpm⟩
  have hraw : createChunksRaw (mergeOptions svc p)
      (splitIntoSemanticUnits svc.maxTokens (normalizeText text)) ≠ [] :=
    createChunksRaw_ne_nil _ _ hune hunits
  have heq : chunkDocument svc p text =
      .ok ((createChunksRaw (mergeOptions svc p)
        (splitIntoSemanticUnits svc.maxTokens (normalizeText text))).filter fun c =>
          (mergeOptions svc p).minChunkSize ≤ c.tokenCount ||
          (createChunksRaw (mergeOptions svc p)
            (splitIntoSemanticUnits svc.maxTokens (normalizeText text))).length = 1) := by
    rw [chunkDocument]
    rw [if_neg h]
    rfl
  refine ⟨createChunksRaw (mergeOptions svc p)
    (splitIntoSemanticUnits svc.maxTokens (normalizeText text)), hraw, heq, ?_, ?_⟩
  · intro h1
    rw [heq, filter_eq_self_of_len_one h1]
  · intro hex cs hcs
    rw [heq] at hcs
    have := Except.ok.inj hcs
    rw [← this]
    exact filter_ne_nil_of_big hex

/-- Witness for C5: the hypotheses of the amended law hold for the text
`"Hello world."` under the default options. -/
theorem c5_amended_witness :
    (trimStr "Hello world.".data ≠ []) ∧
    ∃ raw : List DocumentChunk,
      raw ≠ [] ∧
      chunkDocument ⟨1500, 150, 100⟩ ⟨none, none, none⟩ "Hello world.".data =
        .ok (raw.filter fun c =>
          (mergeOptions ⟨1500, 150, 100⟩ ⟨none, none, none⟩).minChunkSize ≤ c.tokenCount ||
          raw.length = 1) ∧
      (raw.length = 1 →
        chunkDocument ⟨1500, 150, 100⟩ ⟨none, none, none⟩ "Hello world.".data = .ok raw) ∧
      ((∃ c ∈ raw,
          (mergeOptions ⟨1500, 150, 100⟩ ⟨none, none, none⟩).minChunkSize ≤ c.tokenCount) →
        ∀ cs,
          chunkDocument ⟨1500, 150, 100⟩ ⟨none, none, none⟩ "Hello world.".data = .ok cs →
          cs ≠ []) :=
  ⟨by decide, c5_amended_min_chunk_law ⟨1500, 150, 100⟩ ⟨none, none, none⟩
    "Hello world.".data (by decide) (by decide) (by decide)⟩

def sumTok (us : List SemanticUnit) : Nat := (us.map (·.tokenCount)).sum

theorem sumTok_nil : sumTok [] = 0 := rfl

theorem sumTok_cons (u : SemanticUnit) (us : List SemanticUnit) :
    sumTok (u :: us) = u.tokenCount + sumTok us := by simp [sumTok]

theorem sumTok_append (a b : List SemanticUnit) :
    sumTok (a ++ b) = sumTok a + sumTok b := by simp [sumTok]

theorem buildChunk_tokenCount (us : List SemanticUnit) (idx : Nat) :
    (buildChunk us idx).tokenCount = sumTok us := rfl

theorem createOverlapAux_stop :
    ∀ (l : List SemanticUnit) (k s : Nat) (acc : List SemanticUnit),
      ¬ s < k → createOverlapAux l k s acc = acc := by
  intro l k s acc h
  cases l with
  | nil => rfl
  | cons u rest => rw [createOverlapAux, if_neg h]

theorem createOverlapAux_mem :
    ∀ (l : List SemanticUnit) (k s : Nat) (acc : List SemanticUnit) (v : SemanticUnit),
      v ∈ createOverlapAux l k s acc → v ∈ l ∨ v ∈ acc := by
  intro l
  induction l with
  | nil =>
    intro k s acc v h
    exact Or.inr (by simpa [createOverlapAux] using h)
  | cons u rest ih =>
    intro k s acc v h
    rw [createOverlapAux] at h
    by_cases hs : s < k
    · rw [if_pos hs] at h
      rcases ih k (s + u.tokenCount) (u :: acc) v h with h1 | h2
      · exact Or.inl (List.mem_cons_of_mem _ h1)
      · rcases List.mem_cons.mp h2 with he | hm
        · exact Or.inl (he ▸ List.mem_cons_self _ _)
        · exact Or.inr hm
    · rw [if_neg hs] at h
      exact Or.inr h

theorem createOverlapAux_sum (K : Nat) :
    ∀ (l : List SemanticUnit) (k s : Nat) (acc : List SemanticUnit),
      (∀ v ∈ l, v.tokenCount ≤ K) → s < k →
      sumTok (createOverlapAux l k s acc) ≤ sumTok acc + (k - 1 - s) + K := by
  intro l
  induction l with
  | nil =>
    intro k s acc h hs
    rw [createOverlapAux]
    omega
  | cons u rest ih =>
    intro k s acc h hs
    rw [createOverlapAux, if_pos hs]
    by_cases hs2 : s + u.tokenCount < k
    · have hb := ih k (s + u.tokenCount) (u :: acc)
        (fun v hv => h v (List.mem_cons_of_mem _ hv)) hs2
      rw [sumTok_cons] at hb
      omega
    · rw [createOverlapAux_stop rest k _ _ hs2, sumTok_cons]
      have := h u (List.mem_cons_self _ _)
      omega

theorem createOverlap_mem {us : List SemanticUnit} {k : Nat} {v : SemanticUnit}
    (h : v ∈ createOverlap us k) : v ∈ us := by
  rcases createOverlapAux_mem us.reverse k 0 [] v h with h1 | h2
  · exact List.mem_reverse.mp h1
  · exact absurd h2 (by simp)

theorem createOverlap_sum {us : List SemanticUnit} {k K : Nat} (hk : 0 < k)
    (h : ∀ v ∈ us, v.tokenCount ≤ K) :
    sumTok (createOverlap us k) ≤ k - 1 + K := by
  have hb := createOverlapAux_sum K us.reverse k 0 []
    (fun v hv => h v (List.mem_reverse.mp hv)) hk
  rw [sumTok_nil] at hb
  rw [createOverlap]
  omega

/-- The `createChunks` fold invariant behind the corrected token budget:
`curTok` tracks the running sum, every accumulated unit fits `maxTokens`, and
the running chunk and every closed chunk stay within
`2 * maxTokens + overlapTokens`. -/
def ChunkInv (o : ChunkingOptions) (st : ChunkState) : Prop :=
  st.curTok = sumTok st.cur ∧
  (∀ v ∈ st.cur, v.tokenCount ≤ o.maxTokens) ∧
  sumTok st.cur ≤ 2 * o.maxTokens + o.overlapTokens ∧
  ∀ c ∈ st.chunks, c.tokenCount ≤ 2 * o.maxTokens + o.overlapTokens

theorem stepUnit_inv (o : ChunkingOptions) (st : ChunkState) (u : SemanticUnit)
    (hu : u.tokenCount ≤ o.maxTokens) (hinv : ChunkInv o st) :
    ChunkInv o (stepUnit o st u) := by
  obtain ⟨heq, hmem, hsum, hch⟩ := hinv
  rw [stepUnit]
  dsimp only
  rw [if_neg (show ¬ u.tokenCount > o.maxTokens by omega)]
  by_cases hcond : st.curTok + u.tokenCount > o.maxTokens ∧ st.cur ≠ []
  · rw [if_pos hcond]
    by_cases hov : 0 < o.overlapTokens
    · rw [if_pos hov]
      refine ⟨?_, ?_, ?_, ?_⟩ <;> (try dsimp only)
      · simp [sumTok_append, sumTok]
      · intro v hv
        rcases List.mem_append.mp hv with h1 | h2
        · exact hmem v (createOverlap_mem h1)
        · rw [List.mem_singleton.mp h2]; exact hu
      · rw [sumTok_append]
        have hov_sum : sumTok (createOverlap st.cur o.overlapTokens) ≤
            o.overlapTokens - 1 + o.maxTokens := createOverlap_sum hov hmem
        have hs1 : sumTok [u] = u.tokenCount := by simp [sumTok]
        omega
      · intro c hc
        rcases List.mem_append.mp hc with h1 | h2
        · exact hch c h1
        · rw [List.mem_singleton.mp h2, buildChunk_tokenCount]
          exact hsum
    · rw [if_neg hov]
      refine ⟨?_, ?_, ?_, ?_⟩ <;> (try dsimp only)
      · simp [sumTok_cons, sumTok_nil]
      · intro v hv
        have hveq : v = u := by simpa using hv
        rw [hveq]; exact hu
      · have hs1 : sumTok ([] ++ [u]) = u.tokenCount := by simp [sumTok]
        omega
      · intro c hc
        rcases List.mem_append.mp hc with h1 | h2
        · exact hch c h1
        · rw [List.mem_singleton.mp h2, buildChunk_tokenCount]
          exact hsum
  · rw [if_neg hcond]
    refine ⟨?_, ?_, ?_, ?_⟩ <;> (try dsimp only)
    · simp [sumTok_append, sumTok, heq]
    · intro v hv
      rcases List.mem_append.mp hv with h1 | h2
      · exact hmem v h1
      · rw [List.mem_singleton.mp h2]; exact hu
    · rw [sumTok_append]
      have hs1 : sumTok [u] = u.tokenCount := by simp [sumTok]
      rcases Decidable.not_and_iff_or_not.mp hcond with h1 | h2
      · omega
      · have hc : st.cur = [] := Decidable.not_not.mp h2
        rw [hc, sumTok_nil]
        omega
    · exact hch

theorem foldl_stepUnit_inv (o : ChunkingOptions) :
    ∀ (units : List SemanticUnit) (st : ChunkState),
      (∀ u ∈ units, u.tokenCount ≤ o.maxTokens) → ChunkInv o st →
      ChunkInv o (units.foldl (stepUnit o) st) := by
  intro units
  induction units with
  | nil => intro st _ h; exact h
  | cons u rest ih =>
    intro st hu h
    rw [List.foldl_cons]
    exact ih _ (fun v hv => hu v (List.mem_cons_of_mem _ hv))
      (stepUnit_inv o st u (hu u (List.mem_cons_self _ _)) h)

theorem createChunksRaw_token_bound (o : ChunkingOptions) (units : List SemanticUnit)
    (hu : ∀ u ∈ units, u.tokenCount ≤ o.maxTokens) :
    ∀ c ∈ createChunksRaw o units,
      c.tokenCount ≤ 2 * o.maxTokens + o.overlapTokens := by
  have hinv : ChunkInv o (units.foldl (stepUnit o) ⟨[], [], 0, 0⟩) :=
    foldl_stepUnit_inv o units ⟨[], [], 0, 0⟩ hu
      ⟨rfl, by simp, by simp [sumTok_nil], by simp⟩
  obtain ⟨heq, hmem, hsum, hch⟩ := hinv
  intro c hc
  rw [createChunksRaw] at hc
  by_cases hcur : (units.foldl (stepUnit o) ⟨[], [], 0, 0⟩).cur ≠ []
  · rw [if_pos hcur] at hc
    rcases List.mem_append.mp hc with h1 | h2
    · exact hch c h1
    · rw [List.mem_singleton.mp h2, buildChunk_tokenCount]
      exact hsum
  · rw [if_neg hcur] at hc
    exact hch c hc

/-- **C7.** Corrected token budget: with overlap carry-forward and the
unchecked append of the unit that triggered the close, a chunk's token count
can exceed `maxTokens + overlapTokens` (see the counterexample); when every
semantic unit fits `maxTokens`, the budget the code does guarantee — for
every chunk, not just the non-final ones — is
`tokenCount ≤ 2 * maxTokens + overlapTokens`. -/
theorem c7_amended_token_budget (svc : ChunkingOptions) (p : PartialChunkingOptions)
    (text : List Char) (cs : List DocumentChunk) (c : DocumentChunk)
    (hunits : ∀ u ∈ splitIntoSemanticUnits svc.maxTokens (normalizeText text),
      u.tokenCount ≤ (mergeOptions svc p).maxTokens)
    (hok : chunkDocument svc p text = .ok cs) (hc : c ∈ cs) :
    c.tokenCount ≤
      2 * (mergeOptions svc p).maxTokens + (mergeOptions svc p).overlapTokens := by
  rw [chunkDocument] at hok
  by_cases ht : trimStr text = []
  · rw [if_pos ht] at hok
    exact absurd hok (by simp)
  · rw [if_neg ht] at hok
    have hcs : cs = createChunks (mergeOptions svc p)
        (splitIntoSemanticUnits svc.maxTokens (normalizeText text)) :=
      (Except.ok.inj hok).symm
    rw [hcs] at hc
    rw [createChunks] at hc
    have hraw : c ∈ createChunksRaw (mergeOptions svc p)
        (splitIntoSemanticUnits svc.maxTokens (normalizeText text)) :=
      (List.mem_filter.mp hc).1
    exact createChunksRaw_token_bound _ _ hunits c hraw

/-- Witness for C7: on `"Hello world."` with the default options every unit
fits the budget and the returned chunk obeys the corrected bound. -/
theorem c7_amended_witness :
    (∀ u ∈ splitIntoSemanticUnits (⟨1500, 150, 100⟩ : ChunkingOptions).maxTokens
        (normalizeText "Hello world.".data),
      u.tokenCount ≤ (mergeOptions ⟨1500, 150, 100⟩ ⟨none, none, none⟩).maxTokens) ∧
    (⟨0, "Hello world.".data, 3, 0, 12, .paragraph, 1,
        [(.paragraph, 1)]⟩ : DocumentChunk).tokenCount ≤
      2 * (mergeOptions ⟨1500, 150, 100⟩ ⟨none, none, none⟩).maxTokens +
        (mergeOptions ⟨1500, 150, 100⟩ ⟨none, none, none⟩).overlapTokens :=
  ⟨by decide,
   c7_amended_token_budget ⟨1500, 150, 100⟩ ⟨none, none, none⟩ "Hello world.".data
    [⟨0, "Hello world.".data, 3, 0, 12, .paragraph, 1, [(.paragraph, 1)]⟩]
    ⟨0, "Hello world.".data, 3, 0, 12, .paragraph, 1, [(.paragraph, 1)]⟩
    (by decide) (by decide) (by decide)⟩

theorem trimStr_eq_self_of_ends (l : List Char)
    (h1 : ∀ c, l.head? = some c → wsChar c = false)
    (h2 : ∀ c, l.getLast? = some c → wsChar c = false) : trimStr l = l := by
  have hR : trimR l = l := by
    have hd : l.reverse.dropWhile wsChar = l.reverse := by
      apply dropWhile_head_false
      intro c hc
      rw [List.head?_reverse] at hc
      exact h2 c hc
    rw [trimR, hd, List.reverse_reverse]
  have hL : trimL l = l := dropWhile_head_false wsChar l h1
  rw [trimStr, hR, hL]

/-- A semantic unit whose content is non-empty and already trimmed — every
unit `splitIntoSemanticUnits` emits has this shape. -/
def contentOK (u : SemanticUnit) : Prop :=
  u.content ≠ [] ∧ trimStr u.content = u.content

theorem buildSentenceUnits_contentOK :
    ∀ (ss : List (List Char)) (pos : Nat),
      ∀ u ∈ (buildSentenceUnits pos ss).1, contentOK u := by
  intro ss
  induction ss with
  | nil => intro pos u h; exact absurd h (by simp [buildSentenceUnits])
  | cons s rest ih =>
    intro pos u h
    rw [buildSentenceUnits] at h
    by_cases hs : trimStr s = []
    · rw [if_pos hs] at h
      exact ih pos u h
    · rw [if_neg hs] at h
      dsimp only at h
      rcases List.mem_cons.mp h with he | hm
      · subst he
        exact ⟨hs, trimStr_idem s⟩
      · exact ih (pos + s.length) u hm

theorem buildUnits_contentOK (svcMax : Nat) :
    ∀ (paras : List (List Char)) (pos : Nat),
      ∀ u ∈ buildUnits svcMax pos paras, contentOK u := by
  intro paras
  induction paras with
  | nil => intro pos u h; exact absurd h (by simp [buildUnits])
  | cons p rest ih =>
    intro pos u h
    rw [buildUnits] at h
    by_cases hp : trimStr p = []
    · rw [if_pos hp] at h
      exact ih pos u h
    · rw [if_neg hp] at h
      dsimp only at h
      split at h
      · rcases List.mem_append.mp h with h1 | h2
        · exact buildSentenceUnits_contentOK _ _ u h1
        · exact ih _ u h2
      · rcases List.mem_cons.mp h with he | hm
        · subst he
          exact ⟨hp, trimStr_idem p⟩
        · exact ih _ u hm

theorem units_contentOK (svcMax : Nat) (text : List Char) :
    ∀ u ∈ splitIntoSemanticUnits svcMax text, contentOK u := by
  intro u h
  exact buildUnits_contentOK svcMax _ 0 u h

theorem joinContents_ne_nil :
    ∀ (us : List (List Char)), us ≠ [] → (∀ x ∈ us, x ≠ []) → joinContents us ≠ [] := by
  intro us hne hx
  cases us with
  | nil => exact absurd rfl hne
  | cons x rest =>
    cases rest with
    | nil => exact hx x (by simp)
    | cons y r =>
      rw [joinContents]
      intro he
      rcases List.append_eq_nil.mp he with ⟨_, h2⟩
      exact absurd h2 (by simp)

theorem joinContents_append :
    ∀ (us vs : List (List Char)), us ≠ [] → vs ≠ [] →
      joinContents (us ++ vs) = joinContents us ++ '\n' :: '\n' :: joinContents vs := by
  intro us
  induction us with
  | nil => intro vs h _; exact absurd rfl h
  | cons x rest ih =>
    intro vs _ hvs
    cases rest with
    | nil =>
      cases vs with
      | nil => exact absurd rfl hvs
      | cons v vs' => rfl
    | cons y r =>
      have : (x :: y :: r) ++ vs = x :: y :: (r ++ vs) := by simp
      rw [this, joinContents, joinContents]
      rw [show y :: (r ++ vs) = (y :: r) ++ vs by simp] at *
      rw [ih vs (by simp) hvs]
      simp

theorem joinContents_head? :
    ∀ (x : List Char) (rest : List (List Char)), x ≠ [] →
      (joinContents (x :: rest)).head? = x.head? := by
  intro x rest hx
  cases rest with
  | nil => rfl
  | cons y r =>
    rw [joinContents]
    cases x with
    | nil => exact absurd rfl hx
    | cons a t => rfl

theorem joinContents_getLast? :
    ∀ (us : List (List Char)) (z : List Char), (∀ x ∈ us, x ≠ []) →
      us.getLast? = some z → (joinContents us).getLast? = z.getLast? := by
  intro us
  induction us with
  | nil => intro z _ h; exact absurd h (by simp)
  | cons x rest ih =>
    intro z hx hz
    cases rest with
    | nil =>
      have : z = x := by simpa using hz.symm
      subst this
      rfl
    | cons y r =>
      rw [joinContents]
      rw [List.getLast?_cons_cons] at hz
      have hjoin_ne : joinContents (y :: r) ≠ [] :=
        joinContents_ne_nil _ (by simp) (fun v hv => hx v (List.mem_cons_of_mem _ hv))
      have h1 : (x ++ '\n' :: '\n' :: joinContents (y :: r)).getLast? =
          ('\n' :: '\n' :: joinContents (y :: r)).getLast? := by
        rw [List.getLast?_append_of_ne_nil _ (by simp)]
      rw [h1, getLast?_cons_ne (by simp), getLast?_cons_ne hjoin_ne]
      exact ih z (fun v hv => hx v (List.mem_cons_of_mem _ hv)) hz

theorem createOverlapAux_shape :
    ∀ (l : List SemanticUnit) (k s : Nat) (acc : List SemanticUnit),
      ∃ t : List SemanticUnit,
        List.IsPrefix t l ∧ createOverlapAux l k s acc = t.reverse ++ acc := by
  intro l
  induction l with
  | nil =>
    intro k s acc
    exact ⟨[], by simp, by rw [createOverlapAux]; simp⟩
  | cons u rest ih =>
    intro k s acc
    rw [createOverlapAux]
    by_cases hs : s < k
    · rw [if_pos hs]
      obtain ⟨t, hp, he⟩ := ih k (s + u.tokenCount) (u :: acc)
      obtain ⟨r, hr⟩ := hp
      refine ⟨u :: t, ⟨r, by rw [← hr]; simp⟩, ?_⟩
      rw [he]
      simp
    · rw [if_neg hs]
      exact ⟨[], ⟨u :: rest, rfl⟩, by simp⟩

theorem createOverlap_isSuffix (us : List SemanticUnit) (k : Nat) :
    List.IsSuffix (createOverlap us k) us := by
  obtain ⟨t, hp, he⟩ := createOverlapAux_shape us.reverse k 0 []
  rw [createOverlap, he, List.append_nil]
  have hp2 : List.IsPrefix t.reverse.reverse us.reverse := by simpa using hp
  exact List.reverse_prefix.mp hp2

theorem createOverlap_ne_nil {us : List SemanticUnit} {k : Nat}
    (hk : 0 < k) (hne : us ≠ []) : createOverlap us k ≠ [] := by
  have hr : us.reverse ≠ [] := by simpa using hne
  obtain ⟨v, rl, he⟩ := List.exists_cons_of_ne_nil hr
  rw [createOverlap, he, createOverlapAux, if_pos hk]
  obtain ⟨t, _, he2⟩ := createOverlapAux_shape rl k (0 + v.tokenCount) [v]
  rw [he2]
  simp

theorem map_content_ne_nil {us : List SemanticUnit}
    (hok : ∀ v ∈ us, contentOK v) :
    ∀ x ∈ us.map (·.content), x ≠ [] := by
  intro x hx
  obtain ⟨v, hv, he⟩ := List.mem_map.mp hx
  rw [← he]
  exact (hok v hv).1

theorem trimStr_joinContents {us : List SemanticUnit} (hne : us ≠ [])
    (hok : ∀ v ∈ us, contentOK v) :
    trimStr (joinContents (us.map (·.content))) = joinContents (us.map (·.content)) := by
  obtain ⟨u0, rest, he⟩ := List.exists_cons_of_ne_nil hne
  subst he
  apply trimStr_eq_self_of_ends
  · intro c hc
    rw [List.map_cons, joinContents_head? _ _ (hok u0 (by simp)).1] at hc
    have h0 := (hok u0 (by simp)).2
    rw [← h0] at hc
    exact trimStr_head?_not_ws _ c hc
  · intro c hc
    have hzx : (u0 :: rest).getLast? ≠ none := by
      intro hl
      exact absurd (List.getLast?_eq_none_iff.mp hl) (by simp)
    obtain ⟨z, hz⟩ := Option.ne_none_iff_exists'.mp hzx
    have hzm : z ∈ u0 :: rest := List.mem_of_getLast?_eq_some hz
    have hmap : ((u0 :: rest).map (·.content)).getLast? = some z.content := by
      rw [List.getLast?_map, hz]
      rfl
    rw [joinContents_getLast? _ z.content (map_content_ne_nil hok) hmap] at hc
    have hzt := (hok z hzm).2
    rw [← hzt] at hc
    exact trimStr_getLast?_not_ws _ c hc

theorem buildChunk_content (us : List SemanticUnit) (idx : Nat) :
    (buildChunk us idx).content = trimStr (joinContents (us.map (·.content))) := rfl

/-- The (weakened) carry-forward relation between consecutive chunks: some
non-empty trailing segment of the earlier chunk's content is duplicated as a
leading segment of the later chunk's content. -/
def overlapRel (c₁ c₂ : DocumentChunk) : Prop :=
  ∃ ov : List Char, ov ≠ [] ∧ List.IsSuffix ov c₁.content ∧ List.IsPrefix ov c₂.content

/-- The `createChunks` fold invariant behind the corrected overlap law:
accumulated units are trimmed and non-empty, closed chunks overlap pairwise,
and (once a chunk has been closed) the running chunk starts with the overlap
seed taken from the last closed chunk. -/
def C8Inv (st : ChunkState) : Prop :=
  (∀ v ∈ st.cur, contentOK v) ∧
  List.Chain' overlapRel st.chunks ∧
  (st.chunks = [] ∨
    ∃ last ov rest, st.chunks.getLast? = some last ∧ st.cur = ov ++ rest ∧ ov ≠ [] ∧
      List.IsSuffix (joinContents (ov.map (·.content))) last.content)

theorem close_rel {cur : List SemanticUnit} (idx : Nat)
    (hcur : cur ≠ []) (hok : ∀ v ∈ cur, contentOK v)
    {last : DocumentChunk} {ov rest : List SemanticUnit}
    (hsplit : cur = ov ++ rest) (hovne : ov ≠ [])
    (hsuf : List.IsSuffix (joinContents (ov.map (·.content))) last.content) :
    overlapRel last (buildChunk cur idx) := by
  refine ⟨joinContents (ov.map (·.content)), ?_, hsuf, ?_⟩
  · apply joinContents_ne_nil
    · simpa using hovne
    · exact map_content_ne_nil fun v hv =>
        hok v (hsplit ▸ List.mem_append.mpr (Or.inl hv))
  · rw [buildChunk_content, trimStr_joinContents hcur hok, hsplit]
    by_cases hrest : rest = []
    · subst hrest
      rw [List.append_nil]
    · rw [List.map_append,
        joinContents_append _ _ (by simpa using hovne) (by simpa using hrest)]
      exact ⟨'\n' :: '\n' :: joinContents (rest.map (·.content)), rfl⟩

theorem seed_suffix {cur : List SemanticUnit} (idx : Nat) {k : Nat}
    (hcur : cur ≠ []) (hok : ∀ v ∈ cur, contentOK v)
    (hovne : createOverlap cur k ≠ []) :
    List.IsSuffix (joinContents ((createOverlap cur k).map (·.content)))
      (buildChunk cur idx).content := by
  rw [buildChunk_content, trimStr_joinContents hcur hok]
  obtain ⟨pre, hpre⟩ := createOverlap_isSuffix cur k
  conv_rhs => rw [← hpre]
  by_cases hpre_nil : pre = []
  · subst hpre_nil
    rw [List.nil_append]
  · rw [List.map_append,
      joinContents_append _ _ (by simpa using hpre_nil) (by simpa using hovne)]
    exact ⟨joinContents (pre.map (·.content)) ++ ['\n', '\n'], by simp⟩

theorem stepUnit_c8inv (o : ChunkingOptions) (st : ChunkState) (u : SemanticUnit)
    (hov : 0 < o.overlapTokens) (hu : u.tokenCount ≤ o.maxTokens)
    (hcu : contentOK u) (hinv : C8Inv st) : C8Inv (stepUnit o st u) := by
  obtain ⟨hmem, hchain, hseed⟩ := hinv
  rw [stepUnit]
  dsimp only
  rw [if_neg (show ¬ u.tokenCount > o.maxTokens by omega)]
  by_cases hcond : st.curTok + u.tokenCount > o.maxTokens ∧ st.cur ≠ []
  · rw [if_pos hcond, if_pos hov]
    have hcur_ne : st.cur ≠ [] := hcond.2
    have hovne : createOverlap st.cur o.overlapTokens ≠ [] :=
      createOverlap_ne_nil hov hcur_ne
    refine ⟨?_, ?_, ?_⟩ <;> (try dsimp only)
    · intro v hv
      rcases List.mem_append.mp hv with h1 | h2
      · exact hmem v (createOverlap_mem h1)
      · have hveq : v = u := by simpa using h2
        rw [hveq]; exact hcu
    · rw [List.chain'_append]
      refine ⟨hchain, List.chain'_singleton _, ?_⟩
      intro x hx y hy
      have hy' : y = buildChunk st.cur st.idx := by
        have := hy
        simp only [List.head?_cons, Option.mem_def, Option.some.injEq] at this
        exact this.symm
      subst hy'
      rcases hseed with hnil | ⟨last, ov, rest, hlast, hsplit, hovne2, hsuf⟩
      · rw [hnil] at hx
        exact absurd hx (by simp)
      · have hx' : x = last := by
          rw [hlast] at hx
          have := hx
          simp only [Option.mem_def, Option.some.injEq] at this
          exact this.symm
        subst hx'
        exact close_rel st.idx hcur_ne hmem hsplit hovne2 hsuf
    · right
      refine ⟨buildChunk st.cur st.idx, createOverlap st.cur o.overlapTokens, [u],
        ?_, rfl, hovne, ?_⟩
      · rw [List.getLast?_append_of_ne_nil _ (by simp)]
        rfl
      · exact seed_suffix st.idx hcur_ne hmem hovne
  · rw [if_neg hcond]
    refine ⟨?_, ?_, ?_⟩ <;> (try dsimp only)
    · intro v hv
      rcases List.mem_append.mp hv with h1 | h2
      · exact hmem v h1
      · have hveq : v = u := by simpa using h2
        rw [hveq]; exact hcu
    · exact hchain
    · rcases hseed with hnil | ⟨last, ov, rest, hlast, hsplit, hovne2, hsuf⟩
      · exact Or.inl hnil
      · exact Or.inr ⟨last, ov, rest ++ [u], hlast,
          by rw [hsplit, List.append_assoc], hovne2, hsuf⟩

theorem foldl_stepUnit_c8inv (o : ChunkingOptions) (hov : 0 < o.overlapTokens) :
    ∀ (units : List SemanticUnit) (st : ChunkState),
      (∀ u ∈ units, u.tokenCount ≤ o.maxTokens) → (∀ u ∈ units, contentOK u) →
      C8Inv st → C8Inv (units.foldl (stepUnit o) st) := by
  intro units
  induction units with
  | nil => intro st _ _ h; exact h
  | cons u rest ih =>
    intro st hu hc h
    rw [List.foldl_cons]
    exact ih _ (fun v hv => hu v (List.mem_cons_of_mem _ hv))
      (fun v hv => hc v (List.mem_cons_of_mem _ hv))
      (stepUnit_c8inv o st u hov (hu u (List.mem_cons_self _ _))
        (hc u (List.mem_cons_self _ _)) h)

theorem createChunksRaw_chain (o : ChunkingOptions) (units : List SemanticUnit)
    (hov : 0 < o.overlapTokens)
    (hu : ∀ u ∈ units, u.tokenCount ≤ o.maxTokens)
    (hc : ∀ u ∈ units, contentOK u) :
    List.Chain' overlapRel (createChunksRaw o units) := by
  have hinv : C8Inv (units.foldl (stepUnit o) ⟨[], [], 0, 0⟩) :=
    foldl_stepUnit_c8inv o hov units ⟨[], [], 0, 0⟩ hu hc
      ⟨by simp, List.chain'_nil, Or.inl rfl⟩
  obtain ⟨hmem, hchain, hseed⟩ := hinv
  rw [createChunksRaw]
  by_cases hcur : (units.foldl (stepUnit o) ⟨[], [], 0, 0⟩).cur ≠ []
  · rw [if_pos hcur]
    rw [List.chain'_append]
    refine ⟨hchain, List.chain'_singleton _, ?_⟩
    intro x hx y hy
    have hy' : y = buildChunk (units.foldl (stepUnit o) ⟨[], [], 0, 0⟩).cur
        (units.foldl (stepUnit o) ⟨[], [], 0, 0⟩).idx := by
      have := hy
      simp only [List.head?_cons, Option.mem_def, Option.some.injEq] at this
      exact this.symm
    subst hy'
    rcases hseed with hnil | ⟨last, ov, rest, hlast, hsplit, hovne2, hsuf⟩
    · rw [hnil] at hx
      exact absurd hx (by simp)
    · have hx' : x = last := by
        rw [hlast] at hx
        have := hx
        simp only [Option.mem_def, Option.some.injEq] at this
        exact this.symm
      subst hx'
      exact close_rel _ hcur hmem hsplit hovne2 hsuf
  · rw [if_neg hcur]
    exact hchain

/-- **C8.** Corrected overlap carry-forward law.  The claimed form — every
chunk after the first begins with the trailing `overlapTokens` worth of
units of the chunk just closed — fails on the `splitLargeUnit` path, whose
inner loop restarts chunks without any overlap seed (see the
counterexample).  When every semantic unit fits `maxTokens` (so the large
path is never taken) and `overlapTokens > 0`, consecutive assembled chunks
do overlap: some non-empty trailing segment of each chunk's content
reappears verbatim as a leading segment of the next chunk's content; the
returned list is this assembled list filtered by the minimum-size rule. -/
theorem c8_amended_overlap_carry (svc : ChunkingOptions) (p : PartialChunkingOptions)
    (text : List Char) (h : trimStr text ≠ [])
    (hov : 0 < (mergeOptions svc p).overlapTokens)
    (hunits : ∀ u ∈ splitIntoSemanticUnits svc.maxTokens (normalizeText text),
      u.tokenCount ≤ (mergeOptions svc p).maxTokens) :
    ∃ raw : List DocumentChunk,
      chunkDocument svc p text =
        .ok (raw.filter fun c =>
          (mergeOptions svc p).minChunkSize ≤ c.tokenCount || raw.length = 1) ∧
      List.Chain' overlapRel raw := by
  refine ⟨createChunksRaw (mergeOptions svc p)
    (splitIntoSemanticUnits svc.maxTokens (normalizeText text)), ?_, ?_⟩
  · rw [chunkDocument, if_neg h]
    rfl
  · exact createChunksRaw_chain _ _ hov hunits (units_contentOK _ _)

/-- Witness for C8: three chunks are assembled from
`"aa aa\n\nbb bb\n\ncc cc"` with `maxTokens = 5, overlapTokens = 2`, every
unit fits the budget, and the amended law applies. -/
theorem c8_amended_witness :
    (trimStr "aa aa\n\nbb bb\n\ncc cc".data ≠ []) ∧
    (0 < (mergeOptions ⟨5, 2, 0⟩ {}).overlapTokens) ∧
    ∃ raw : List DocumentChunk,
      chunkDocument ⟨5, 2, 0⟩ {} "aa aa\n\nbb bb\n\ncc cc".data =
        .ok (raw.filter fun c =>
          (mergeOptions ⟨5, 2, 0⟩ {}).minChunkSize ≤ c.tokenCount || raw.length = 1) ∧
      List.Chain' overlapRel raw :=
  ⟨by decide, by decide,
   c8_amended_overlap_carry ⟨5, 2, 0⟩ {} "aa aa\n\nbb bb\n\ncc cc".data
    (by decide) (by decide) (by decide)⟩

def restoreLen (l : List Char) : Nat := (restoreDots l).length

theorem restoreDots_marker (r : List Char) :
    restoreDots (dotMark ++ r) = '.' :: restoreDots r := rfl

theorem restoreDots_cons_ne {c : Char} (r : List Char)
    (h : ¬ ∃ t, c :: r = dotMark ++ t) :
    restoreDots (c :: r) = c :: restoreDots r := by
  rw [restoreDots.eq_def]
  split
  · rename_i r1 heq
    exact absurd ⟨r1, heq⟩ h
  · rename_i c1 r1 heq
    injection heq with h1 h2
    rw [h1, h2]
  · rename_i heq
    exact absurd heq (by simp)

theorem restoreDots_append_noLT :
    ∀ (a b : List Char), (∀ c ∈ a, c ≠ '<') →
      restoreDots (a ++ b) = a ++ restoreDots b := by
  intro a
  induction a with
  | nil => intro b _; simp
  | cons c a' ih =>
    intro b h
    have hc : c ≠ '<' := h c (List.mem_cons_self _ _)
    have hne : ¬ ∃ t, c :: (a' ++ b) = dotMark ++ t := by
      rintro ⟨t, ht⟩
      have hhd := congrArg List.head? ht
      simp only [List.head?_cons, dotMark] at hhd
      exact hc (by injection hhd)
    rw [List.cons_append, restoreDots_cons_ne _ hne,
      ih b fun x hx => h x (List.mem_cons_of_mem _ hx)]
    rfl

theorem restoreLen_append_le :
    ∀ (n : Nat) (a b : List Char), a.length ≤ n →
      restoreLen (a ++ b) ≤ a.length + restoreLen b := by
  intro n
  induction n with
  | zero =>
    intro a b ha
    have : a = [] := List.length_eq_zero.mp (Nat.le_zero.mp ha)
    subst this
    simp
  | succ n ih =>
    intro a b ha
    cases a with
    | nil => simp
    | cons c a' =>
      by_cases hm : ∃ t, (c :: a') ++ b = dotMark ++ t
      · obtain ⟨t, ht⟩ := hm
        rcases List.append_eq_append_iff.mp ht with ⟨a2, hd, hb⟩ | ⟨c2, hda, hdt⟩
        · subst hb
          have hlen7 : a'.length + a2.length = 6 := by
            have := congrArg List.length hd
            simp [dotMark] at this
            omega
          have hnoLT : ∀ x ∈ a2, x ≠ '<' := by
            have htail : c :: (a' ++ a2) = dotMark := by
              rw [hd]; simp
            have htl : a' ++ a2 = ['!', 'D', 'O', 'T', '!', '>'] := by
              have := congrArg List.tail htail
              simpa [dotMark] using this
            intro x hx
            have hx2 : x ∈ a' ++ a2 := List.mem_append.mpr (Or.inr hx)
            rw [htl] at hx2
            have hall : ∀ y ∈ (['!', 'D', 'O', 'T', '!', '>'] : List Char), y ≠ '<' := by
              decide
            exact hall x hx2
          have hsplit : restoreLen (a2 ++ t) = a2.length + restoreLen t := by
            rw [restoreLen, restoreDots_append_noLT a2 t hnoLT]
            simp [restoreLen]
          rw [show (c :: a') ++ (a2 ++ t) = dotMark ++ t from by rw [hd]; simp]
          rw [restoreLen, restoreDots_marker, hsplit]
          simp only [List.length_cons, restoreLen]
          omega
        · have h7 : a'.length + 1 = c2.length + 7 := by
            have := congrArg List.length hda
            simp [dotMark] at this
            omega
          have hc2 : c2.length ≤ n := by
            simp only [List.length_cons] at ha
            omega
          have ihh := ih c2 b hc2
          rw [show (c :: a') ++ b = dotMark ++ (c2 ++ b) from by rw [hda]; simp]
          rw [restoreLen, restoreDots_marker]
          rw [restoreLen] at ihh
          simp only [List.length_cons]
          omega
      · have ha' : a'.length ≤ n := by
          simp only [List.length_cons] at ha
          omega
        rw [List.cons_append, restoreLen,
          restoreDots_cons_ne (a' ++ b) (by simpa using hm)]
        have ihh := ih a' b ha'
        rw [restoreLen] at ihh
        simp only [List.length_cons]
        omega

theorem restoreLen_le (l : List Char) : restoreLen l ≤ l.length := by
  have := restoreLen_append_le l.length l [] le_rfl
  simpa [restoreLen, restoreDots] using this

theorem restoreLen_cons_le (c : Char) (l : List Char) :
    restoreLen (c :: l) ≤ 1 + restoreLen l := by
  have := restoreLen_append_le 1 [c] l (by simp)
  simpa using this

theorem altMatch_len :
    ∀ (p l m r : List Char), altMatch p l = some (m, r) →
      l.length = m.length + r.length := by
  intro p
  induction p with
  | nil =>
    intro l m r h
    simp only [altMatch, Option.some.injEq, Prod.mk.injEq] at h
    rw [← h.1, ← h.2]
    simp
  | cons p ps ih =>
    intro l m r h
    cases l with
    | nil => simp [altMatch] at h
    | cons c cs =>
      simp only [altMatch] at h
      split at h
      · split at h
        · exact absurd h (by simp)
        · simp only [Option.map_eq_some'] at h
          obtain ⟨⟨m', r'⟩, hm, he⟩ := h
          obtain ⟨he1, he2⟩ := Prod.mk.injEq .. ▸ he
          rw [← he1, ← he2]
          simp only [List.length_cons]
          rw [ih cs m' r' hm]
          omega
      · split at h
        · simp only [Option.map_eq_some'] at h
          obtain ⟨⟨m', r'⟩, hm, he⟩ := h
          obtain ⟨he1, he2⟩ := Prod.mk.injEq .. ▸ he
          rw [← he1, ← he2]
          simp only [List.length_cons]
          rw [ih cs m' r' hm]
          omega
        · exact absurd h (by simp)

theorem firstAltMatch_len :
    ∀ (alts : List (List Char)) (l m r : List Char),
      firstAltMatch alts l = some (m, r) → l.length = m.length + 1 + r.length := by
  intro alts
  induction alts with
  | nil => intro l m r h; simp [firstAltMatch] at h
  | cons a rest ih =>
    intro l m r h
    rw [firstAltMatch] at h
    split at h
    · rename_i pr heq
      cases Option.some.inj h
      have hd := dotAfter_eq _ _ _ heq
      have hl := altMatch_len a l m ('.' :: r) hd
      simp only [List.length_cons] at hl
      omega
    · exact ih l m r h

theorem restoreLen_replAbbrevAux :
    ∀ (fuel : Nat) (bnd : Bool) (l : List Char),
      restoreLen (replAbbrevAux fuel bnd l) ≤ l.length := by
  intro fuel
  induction fuel with
  | zero => intro bnd l; exact restoreLen_le l
  | succ fuel ih =>
    intro bnd l
    cases l with
    | nil => simp [replAbbrevAux, restoreLen, restoreDots]
    | cons c r =>
      rw [replAbbrevAux]
      cases bnd with
      | false =>
        simp only [Bool.false_eq_true, if_false]
        calc restoreLen (c :: replAbbrevAux fuel (!isWordChar c) r) ≤
            1 + restoreLen (replAbbrevAux fuel (!isWordChar c) r) :=
              restoreLen_cons_le _ _
          _ ≤ 1 + r.length := by have := ih (!isWordChar c) r; omega
          _ = (c :: r).length := by simp only [List.length_cons]; omega
      | true =>
        simp only [if_true]
        cases hfm : firstAltMatch abbrevPats (c :: r) with
        | none =>
          calc restoreLen (c :: replAbbrevAux fuel (!isWordChar c) r) ≤
              1 + restoreLen (replAbbrevAux fuel (!isWordChar c) r) :=
                restoreLen_cons_le _ _
            _ ≤ 1 + r.length := by have := ih (!isWordChar c) r; omega
            _ = (c :: r).length := by simp only [List.length_cons]; omega
        | some pr =>
          obtain ⟨m, rest⟩ := pr
          have hlen := firstAltMatch_len abbrevPats (c :: r) m rest hfm
          have h1 : restoreLen (m ++ (dotMark ++ replAbbrevAux fuel true rest)) ≤
              m.length + restoreLen (dotMark ++ replAbbrevAux fuel true rest) :=
            restoreLen_append_le m.length m _ le_rfl
          have h2 : restoreLen (dotMark ++ replAbbrevAux fuel true rest) =
              1 + restoreLen (replAbbrevAux fuel true rest) := by
            rw [restoreLen, restoreDots_marker]
            simp only [List.length_cons, restoreLen]
            omega
          have h3 := ih true rest
          simp only [List.append_assoc]
          omega

theorem restoreLen_replAbbrev (l : List Char) :
    restoreLen (replAbbrev l) ≤ l.length := by
  rw [replAbbrev]
  exact restoreLen_replAbbrevAux l.length true l

theorem sentPunct_ne_lt {c : Char} (h : sentPunct c = true) : c ≠ '<' := by
  intro hc
  subst hc
  exact absurd h (by decide)

theorem wsChar_ne_lt {c : Char} (h : wsChar c = true) : c ≠ '<' := by
  intro hc
  subst hc
  exact absurd h (by decide)

theorem pair_mem_zip {α : Type} :
    ∀ (p : List α) (l rest : List α) (a b : α),
      l = p ++ a :: b :: rest → (a, b) ∈ l.zip l.tail := by
  intro p
  induction p with
  | nil =>
    intro l rest a b h
    subst h
    simp [List.zip]
  | cons x p' ih =>
    intro l rest a b h
    subst h
    have hne : p' ++ a :: b :: rest ≠ [] := by simp
    obtain ⟨y, t', hyt⟩ := List.exists_cons_of_ne_nil hne
    have hmem : (a, b) ∈ (p' ++ a :: b :: rest).zip (p' ++ a :: b :: rest).tail :=
      ih _ rest a b rfl
    rw [List.cons_append, hyt]
    rw [hyt] at hmem
    simp only [List.zip, List.tail_cons, List.zipWith_cons_cons] at hmem ⊢
    exact List.mem_cons_of_mem _ hmem

theorem no_straddle (p : List Char) (hpne : p ≠ [])
    (hp : ¬ ∃ t, p = dotMark ++ t)
    (P W rest : List Char) (hP : P ≠ [])
    (hPp : ∀ c ∈ P, sentPunct c = true)
    (hW : W ≠ []) (hWw : ∀ c ∈ W, wsChar c = true) :
    ¬ ∃ t, p ++ (P ++ (W ++ rest)) = dotMark ++ t := by
  rintro ⟨t, ht⟩
  rcases List.append_eq_append_iff.mp ht with ⟨a2, hd, hb⟩ | ⟨c2, hda, hdt⟩
  · obtain ⟨ph, pt, hpe⟩ := List.exists_cons_of_ne_nil hP
    subst hpe
    cases a2 with
    | nil =>
      exact hp ⟨[], by rw [hd]; simp⟩
    | cons q a2' =>
      have hqph : q = ph := by
        simp only [List.cons_append] at hb
        have := congrArg List.head? hb
        simp only [List.head?_cons] at this
        exact (Option.some.inj this).symm
      subst hqph
      cases a2' with
      | nil =>
        have hlast : dotMark.getLast? = some q := by
          rw [hd]
          rw [List.getLast?_append_of_ne_nil _ (by simp)]
          rfl
        have hgt : q = '>' := by
          rw [show dotMark.getLast? = some '>' from by decide] at hlast
          exact (Option.some.inj hlast).symm
        subst hgt
        exact absurd (hPp _ (List.mem_cons_self _ _)) (by decide)
      | cons q2 a2'' =>
        have hpair : (q, q2) ∈ dotMark.zip dotMark.tail :=
          pair_mem_zip p dotMark a2'' q q2 hd
        have hq2 : sentPunct q2 = true ∨ wsChar q2 = true := by
          simp only [List.cons_append] at hb
          have htb := congrArg List.tail hb
          simp only [List.tail_cons] at htb
          cases pt with
          | nil =>
            obtain ⟨wh, wt, hwe⟩ := List.exists_cons_of_ne_nil hW
            rw [hwe] at htb
            simp only [List.nil_append, List.cons_append] at htb
            have hh := congrArg List.head? htb
            simp only [List.head?_cons] at hh
            refine Or.inr ?_
            rw [← Option.some.inj hh]
            exact hWw wh (by rw [hwe]; exact List.mem_cons_self _ _)
          | cons pth ptt =>
            simp only [List.cons_append] at htb
            have hh := congrArg List.head? htb
            simp only [List.head?_cons] at hh
            refine Or.inl ?_
            rw [← Option.some.inj hh]
            exact hPp pth (List.mem_cons_of_mem _ (List.mem_cons_self _ _))
        have hqp : sentPunct q = true := hPp q (List.mem_cons_self _ _)
        have hforbid : ∀ ab ∈ dotMark.zip dotMark.tail,
            ¬ (sentPunct ab.1 = true ∧ (sentPunct ab.2 = true ∨ wsChar ab.2 = true)) := by
          decide
        exact hforbid (q, q2) hpair ⟨hqp, hq2⟩
  · exact hp ⟨c2, hda⟩

theorem restoreDots_split :
    ∀ (n : Nat) (p : List Char), p.length ≤ n →
      ∀ (P W rest : List Char), P ≠ [] → (∀ c ∈ P, sentPunct c = true) →
        W ≠ [] → (∀ c ∈ W, wsChar c = true) →
        restoreDots (p ++ (P ++ (W ++ rest))) =
          restoreDots p ++ (P ++ (W ++ restoreDots rest)) := by
  intro n
  induction n with
  | zero =>
    intro p hp P W rest hP hPp hW hWw
    have : p = [] := List.length_eq_zero.mp (Nat.le_zero.mp hp)
    subst this
    simp only [List.nil_append]
    rw [restoreDots_append_noLT P _ (fun c hc => sentPunct_ne_lt (hPp c hc)),
      restoreDots_append_noLT W _ (fun c hc => wsChar_ne_lt (hWw c hc))]
    rfl
  | succ n ih =>
    intro p hp P W rest hP hPp hW hWw
    cases p with
    | nil =>
      simp only [List.nil_append]
      rw [restoreDots_append_noLT P _ (fun c hc => sentPunct_ne_lt (hPp c hc)),
        restoreDots_append_noLT W _ (fun c hc => wsChar_ne_lt (hWw c hc))]
      rfl
    | cons c p' =>
      by_cases hpm : ∃ t', (c :: p') = dotMark ++ t'
      · obtain ⟨p2, hp2⟩ := hpm
        have hlen : p2.length + 7 = p'.length + 1 := by
          have := congrArg List.length hp2
          simp [dotMark] at this
          omega
        rw [hp2, List.append_assoc, restoreDots_marker, restoreDots_marker]
        rw [ih p2 (by simp only [List.length_cons] at hp; omega) P W rest hP hPp hW hWw]
        rfl
      · have hwhole : ¬ ∃ t, (c :: p') ++ (P ++ (W ++ rest)) = dotMark ++ t :=
          no_straddle (c :: p') (by simp) hpm P W rest hP hPp hW hWw
        rw [List.cons_append,
          restoreDots_cons_ne (p' ++ (P ++ (W ++ rest))) (by simpa using hwhole),
          restoreDots_cons_ne p' (fun ⟨t', ht'⟩ => hpm ⟨t', ht'⟩)]
        rw [ih p' (by simp only [List.length_cons] at hp; omega) P W rest hP hPp hW hWw]
        rfl

theorem findSepWs_spec :
    ∀ (m pre : List Char), ∃ W r, findSepWs pre m = (pre.reverse, r) ∧
      m = W ++ r ∧ (∀ c ∈ W, wsChar c = true) := by
  intro m
  induction m with
  | nil => intro pre; exact ⟨[], [], rfl, rfl, by simp⟩
  | cons c r' ih =>
    intro pre
    by_cases hc : wsChar c = true
    · obtain ⟨W', r, heq, hm, hws⟩ := ih pre
      refine ⟨c :: W', r, ?_, ?_, ?_⟩
      · rw [findSepWs, if_pos hc]
        exact heq
      · rw [List.cons_append, ← hm]
      · intro x hx
        rcases List.mem_cons.mp hx with he | hm2
        · rw [he]; exact hc
        · exact hws x hm2
    · refine ⟨[], c :: r', ?_, rfl, by simp⟩
      rw [findSepWs, if_neg hc]

theorem findSep_decomp :
    ∀ (n : Nat) (m : List Char), m.length ≤ n →
      (∀ (pre piece rest : List Char), findSepAux pre m = some (piece, rest) →
        ∃ A P W, piece = pre.reverse ++ A ∧ m = A ++ (P ++ (W ++ rest)) ∧
          P ≠ [] ∧ (∀ c ∈ P, sentPunct c = true) ∧
          W ≠ [] ∧ (∀ c ∈ W, wsChar c = true)) ∧
      (∀ (pre pend piece rest : List Char), pend ≠ [] →
        (∀ c ∈ pend, sentPunct c = true) →
        findSepPunct pre pend m = some (piece, rest) →
        ∃ A P W, piece = pre.reverse ++ A ∧
          pend.reverse ++ m = A ++ (P ++ (W ++ rest)) ∧
          P ≠ [] ∧ (∀ c ∈ P, sentPunct c = true) ∧
          W ≠ [] ∧ (∀ c ∈ W, wsChar c = true)) := by
  intro n
  induction n with
  | zero =>
    intro m hm
    have : m = [] := List.length_eq_zero.mp (Nat.le_zero.mp hm)
    subst this
    constructor
    · intro pre piece rest h
      exact absurd h (by rw [findSepAux]; simp)
    · intro pre pend piece rest _ _ h
      exact absurd h (by rw [findSepPunct]; simp)
  | succ n ih =>
    intro m hm
    cases m with
    | nil =>
      constructor
      · intro pre piece rest h
        exact absurd h (by rw [findSepAux]; simp)
      · intro pre pend piece rest _ _ h
        exact absurd h (by rw [findSepPunct]; simp)
    | cons c r =>
      have hr : r.length ≤ n := by
        simp only [List.length_cons] at hm
        omega
      constructor
      · intro pre piece rest h
        rw [findSepAux] at h
        by_cases hc : sentPunct c = true
        · rw [if_pos hc] at h
          obtain ⟨A, P, W, h1, h2, h3, h4, h5, h6⟩ :=
            (ih r hr).2 pre [c] piece rest (by simp)
              (fun x hx => by rw [List.mem_singleton.mp hx]; exact hc) h
          exact ⟨A, P, W, h1, by simpa using h2, h3, h4, h5, h6⟩
        · rw [if_neg hc] at h
          obtain ⟨A, P, W, h1, h2, h3, h4, h5, h6⟩ :=
            (ih r hr).1 (c :: pre) piece rest h
          refine ⟨c :: A, P, W, ?_, ?_, h3, h4, h5, h6⟩
          · rw [h1]
            simp
          · rw [List.cons_append, ← h2]
      · intro pre pend piece rest hpne hpall h
        rw [findSepPunct] at h
        by_cases hc : sentPunct c = true
        · rw [if_pos hc] at h
          obtain ⟨A, P, W, h1, h2, h3, h4, h5, h6⟩ :=
            (ih r hr).2 pre (c :: pend) piece rest (by simp)
              (fun x hx => by
                rcases List.mem_cons.mp hx with he | hm2
                · rw [he]; exact hc
                · exact hpall x hm2) h
          refine ⟨A, P, W, h1, ?_, h3, h4, h5, h6⟩
          rw [← h2]
          simp
        · rw [if_neg hc] at h
          by_cases hw : wsChar c = true
          · rw [if_pos hw] at h
            obtain ⟨W', r', heqw, hmw, hws⟩ := findSepWs_spec r pre
            rw [heqw] at h
            obtain ⟨hp1, hp2⟩ := Prod.mk.injEq .. ▸ Option.some.inj h
            refine ⟨[], pend.reverse, c :: W',
              by rw [List.append_nil]; exact hp1.symm, ?_, by simpa using hpne,
              fun x hx => hpall x (List.mem_reverse.mp hx), by simp, ?_⟩
            · rw [← hp2, hmw]
              simp
            · intro x hx
              rcases List.mem_cons.mp hx with he | hm2
              · rw [he]; exact hw
              · exact hws x hm2
          · rw [if_neg hw] at h
            obtain ⟨A, P, W, h1, h2, h3, h4, h5, h6⟩ :=
              (ih r hr).1 (c :: pend ++ pre) piece rest h
            refine ⟨pend.reverse ++ (c :: A), P, W, ?_, ?_, h3, h4, h5, h6⟩
            · rw [h1]
              simp
            · rw [h2]
              simp

def sumRLen (ps : List (List Char)) : Nat := (ps.map restoreLen).sum

def sumLen (ps : List (List Char)) : Nat := (ps.map List.length).sum

theorem splitSentFuel_ne_nil (fuel : Nat) (l : List Char) :
    splitSentFuel fuel l ≠ [] := by
  cases fuel with
  | zero => simp [splitSentFuel]
  | succ fuel =>
    rw [splitSentFuel]
    cases findSep l with
    | none => simp
    | some pr => simp

theorem splitSentFuel_rlen :
    ∀ (fuel : Nat) (l : List Char), l.length ≤ fuel →
      sumRLen (splitSentFuel fuel l) + 2 * (splitSentFuel fuel l).length ≤
        restoreLen l + 2 := by
  intro fuel
  induction fuel with
  | zero =>
    intro l _
    simp [splitSentFuel, sumRLen]
  | succ fuel ih =>
    intro l hl
    cases hfs : findSep l with
    | none =>
      simp [splitSentFuel, hfs, sumRLen]
    | some pr =>
      obtain ⟨p, rest⟩ := pr
      obtain ⟨A, P, W, h1, h2, hPne, hPp, hWne, hWw⟩ :=
        (findSep_decomp l.length l le_rfl).1 [] p rest hfs
      simp only [List.reverse_nil, List.nil_append] at h1
      subst h1
      have hsplit : restoreDots l = restoreDots p ++ (P ++ (W ++ restoreDots rest)) := by
        rw [h2]
        exact restoreDots_split p.length p le_rfl P W rest hPne hPp hWne hWw
      have hrl : restoreLen l =
          restoreLen p + (P.length + (W.length + restoreLen rest)) := by
        rw [restoreLen, hsplit]
        simp [restoreLen]
      have hPW : 1 ≤ P.length ∧ 1 ≤ W.length := by
        constructor
        · cases P with
          | nil => exact absurd rfl hPne
          | cons a b => simp
        · cases W with
          | nil => exact absurd rfl hWne
          | cons a b => simp
      have hrest : rest.length ≤ fuel := by
        have := congrArg List.length h2
        simp only [List.length_append, List.length_cons] at this hl
        omega
      have ihr := ih rest hrest
      simp only [splitSentFuel, hfs, sumRLen, List.map_cons, List.sum_cons,
        List.length_cons]
      rw [sumRLen] at ihr
      omega

theorem sublist_sum_le : ∀ {a b : List Nat}, a.Sublist b → a.sum ≤ b.sum := by
  intro a b h
  induction h with
  | slnil => simp
  | cons x _ ih => simp only [List.sum_cons]; omega
  | cons₂ x _ ih => simp only [List.sum_cons]; omega

theorem splitIntoSentences_len (l : List Char) :
    sumLen (splitIntoSentences l) + (splitIntoSentences l).length ≤ l.length + 1 := by
  have hcore := splitSentFuel_rlen (replAbbrev l).length (replAbbrev l) le_rfl
  have hra := restoreLen_replAbbrev l
  have hk : 1 ≤ (splitSentFuel (replAbbrev l).length (replAbbrev l)).length := by
    cases hsp : splitSentFuel (replAbbrev l).length (replAbbrev l) with
    | nil => exact absurd hsp (splitSentFuel_ne_nil _ _)
    | cons a b => simp
  have hmap : sumLen ((splitSent (replAbbrev l)).map restoreDots) =
      sumRLen (splitSent (replAbbrev l)) := by
    rw [sumLen, sumRLen, List.map_map]
    rfl
  have hsub : (splitIntoSentences l).Sublist
      ((splitSent (replAbbrev l)).map restoreDots) := by
    rw [splitIntoSentences]
    exact List.filter_sublist _
  have hsum : sumLen (splitIntoSentences l) ≤
      sumLen ((splitSent (replAbbrev l)).map restoreDots) :=
    sublist_sum_le (hsub.map List.length)
  have hlen : (splitIntoSentences l).length ≤
      ((splitSent (replAbbrev l)).map restoreDots).length :=
    hsub.length_le
  rw [hmap] at hsum
  rw [List.length_map] at hlen
  rw [splitSent] at hsum hlen
  omega

theorem sumLen_cons (s : List Char) (rest : List (List Char)) :
    sumLen (s :: rest) = s.length + sumLen rest := by
  simp [sumLen]

theorem splitLargeAux_bounds (ty : SemType) (maxT : Nat) :
    ∀ (ss : List (List Char)) (cur : List Char) (ct sp : Nat),
      (∀ q ∈ splitLargeAux ty maxT ss cur ct sp,
        sp ≤ q.startPosition ∧ q.startPosition < q.endPosition ∧
        q.endPosition ≤ sp + cur.length + sumLen ss + ss.length) ∧
      List.Chain' (fun a b => a.endPosition ≤ b.startPosition)
        (splitLargeAux ty maxT ss cur ct sp) := by
  intro ss
  induction ss with
  | nil =>
    intro cur ct sp
    rw [splitLargeAux]
    by_cases hc : cur = []
    · rw [if_pos hc]
      exact ⟨by simp, List.chain'_nil⟩
    · rw [if_neg hc]
      refine ⟨?_, List.chain'_singleton _⟩
      intro q hq
      have hq' : q = ⟨trimStr cur, ty, sp, sp + cur.length, ct⟩ := by simpa using hq
      subst hq'
      have hlen : 0 < cur.length := List.length_pos.mpr hc
      exact ⟨le_rfl, by simpa using hlen, by simp [sumLen]⟩
  | cons s rest ih =>
    intro cur ct sp
    rw [splitLargeAux]
    by_cases hcond : ct + estimateTokenCount s > maxT ∧ cur ≠ []
    · rw [if_pos hcond]
      obtain ⟨ihb, ihc⟩ := ih s (estimateTokenCount s) (sp + cur.length)
      have hlen : 0 < cur.length := List.length_pos.mpr hcond.2
      constructor
      · intro q hq
        rcases List.mem_cons.mp hq with he | hm
        · subst he
          refine ⟨le_rfl, by simpa using hlen, ?_⟩
          rw [sumLen_cons]
          simp only [List.length_cons]
          omega
        · obtain ⟨hb1, hb2, hb3⟩ := ihb q hm
          refine ⟨by omega, hb2, ?_⟩
          rw [sumLen_cons] at *
          simp only [List.length_cons]
          omega
      · rw [List.chain'_cons']
        refine ⟨?_, ihc⟩
        intro b hb
        have hbm : b ∈ splitLargeAux ty maxT rest s (estimateTokenCount s)
            (sp + cur.length) := by
          cases hsx : splitLargeAux ty maxT rest s (estimateTokenCount s)
              (sp + cur.length) with
          | nil => rw [hsx] at hb; exact absurd hb (by simp)
          | cons x xs =>
            rw [hsx] at hb
            simp only [List.head?_cons, Option.mem_def, Option.some.injEq] at hb
            rw [← hb]
            exact List.mem_cons_self _ _
        exact (ihb b hbm).1
    · rw [if_neg hcond]
      obtain ⟨ihb, ihc⟩ :=
        ih (cur ++ (if cur = [] then [] else [' ']) ++ s) (ct + estimateTokenCount s) sp
      constructor
      · intro q hq
        obtain ⟨hb1, hb2, hb3⟩ := ihb q hq
        refine ⟨hb1, hb2, ?_⟩
        rw [sumLen_cons]
        have hpad : (cur ++ (if cur = [] then [] else [' ']) ++ s).length ≤
            cur.length + 1 + s.length := by
          by_cases hc : cur = []
          · simp [hc]
          · simp only [if_neg hc, List.length_append, List.length_cons,
              List.length_nil]
            omega
        simp only [List.length_cons]
        omega
      · exact ihc

theorem splitLargeUnit_bounds (u : SemanticUnit) (maxT : Nat)
    (hspan : u.startPosition + u.content.length ≤ u.endPosition) :
    (∀ q ∈ splitLargeUnit u maxT,
      u.startPosition ≤ q.startPosition ∧ q.startPosition < q.endPosition ∧
      q.endPosition ≤ u.endPosition) ∧
    List.Chain' (fun a b => a.endPosition ≤ b.startPosition)
      (splitLargeUnit u maxT) := by
  rw [splitLargeUnit]
  have hsent := splitIntoSentences_len u.content
  cases hss : splitIntoSentences u.content with
  | nil =>
    rw [splitLargeAux]
    simp
  | cons s1 srest =>
    have hstep : splitLargeAux u.type maxT (s1 :: srest) [] 0 u.startPosition =
        splitLargeAux u.type maxT srest s1 (0 + estimateTokenCount s1)
          u.startPosition := by
      rw [splitLargeAux]
      rw [if_neg (by simp)]
      simp
    rw [hstep]
    obtain ⟨hb, hc⟩ := splitLargeAux_bounds u.type maxT srest s1
      (0 + estimateTokenCount s1) u.startPosition
    rw [hss, sumLen_cons] at hsent
    simp only [List.length_cons] at hsent
    refine ⟨?_, hc⟩
    intro q hq
    obtain ⟨h1, h2, h3⟩ := hb q hq
    exact ⟨h1, h2, by omega⟩

theorem trimStr_length_le (l : List Char) : (trimStr l).length ≤ l.length := by
  calc (trimStr l).length ≤ (trimR l).length := dropWhileLen wsChar (trimR l)
    _ ≤ l.length := by
      rw [trimR, List.length_reverse]
      calc (l.reverse.dropWhile wsChar).length ≤ l.reverse.length :=
          dropWhileLen wsChar l.reverse
        _ = l.length := List.length_reverse l

theorem buildSentenceUnits_pos :
    ∀ (ss : List (List Char)) (pos : Nat),
      pos ≤ (buildSentenceUnits pos ss).2 ∧
      (∀ u ∈ (buildSentenceUnits pos ss).1,
        pos ≤ u.startPosition ∧
        u.startPosition + u.content.length ≤ u.endPosition ∧
        u.endPosition ≤ (buildSentenceUnits pos ss).2) ∧
      List.Chain' (fun a b => a.endPosition ≤ b.startPosition)
        (buildSentenceUnits pos ss).1 := by
  intro ss
  induction ss with
  | nil =>
    intro pos
    rw [buildSentenceUnits]
    exact ⟨le_rfl, by simp, List.chain'_nil⟩
  | cons s rest ih =>
    intro pos
    rw [buildSentenceUnits]
    by_cases hs : trimStr s = []
    · rw [if_pos hs]
      exact ih pos
    · rw [if_neg hs]
      dsimp only
      obtain ⟨ih1, ih2, ih3⟩ := ih (pos + s.length)
      refine ⟨by omega, ?_, ?_⟩
      · intro u hu
        rcases List.mem_cons.mp hu with he | hm
        · subst he
          refine ⟨le_rfl, ?_, ?_⟩
          · have := trimStr_length_le s
            simp only
            omega
          · simp only
            omega
        · obtain ⟨h1, h2, h3⟩ := ih2 u hm
          exact ⟨by omega, h2, h3⟩
      · rw [List.chain'_cons']
        refine ⟨?_, ih3⟩
        intro b hb
        have hbm : b ∈ (buildSentenceUnits (pos + s.length) rest).1 := by
          cases hx : (buildSentenceUnits (pos + s.length) rest).1 with
          | nil => rw [hx] at hb; exact absurd hb (by simp)
          | cons x xs =>
            rw [hx] at hb
            simp only [List.head?_cons, Option.mem_def, Option.some.injEq] at hb
            rw [← hb]
            exact List.mem_cons_self _ _
        have := (ih2 b hbm).1
        simp only
        omega

theorem buildUnits_pos (svcMax : Nat) :
    ∀ (paras : List (List Char)) (pos : Nat),
      (∀ u ∈ buildUnits svcMax pos paras,
        pos ≤ u.startPosition ∧
        u.startPosition + u.content.length ≤ u.endPosition) ∧
      List.Chain' (fun a b => a.endPosition ≤ b.startPosition)
        (buildUnits svcMax pos paras) := by
  intro paras
  induction paras with
  | nil =>
    intro pos
    rw [buildUnits]
    exact ⟨by simp, List.chain'_nil⟩
  | cons p rest ih =>
    intro pos
    rw [buildUnits]
    by_cases hp : trimStr p = []
    · rw [if_pos hp]
      exact ih pos
    · rw [if_neg hp]
      dsimp only
      split
      · -- heavy branch: sentence units ++ continuation
        obtain ⟨hs1, hs2, hs3⟩ :=
          buildSentenceUnits_pos (splitIntoSentences (trimStr p)) pos
        obtain ⟨ihb, ihc⟩ := ih (buildSentenceUnits pos (splitIntoSentences (trimStr p))).2
        constructor
        · intro u hu
          rcases List.mem_append.mp hu with h1 | h2
          · obtain ⟨ha, hb, _⟩ := hs2 u h1
            exact ⟨ha, hb⟩
          · obtain ⟨ha, hb⟩ := ihb u h2
            exact ⟨by omega, hb⟩
        · rw [List.chain'_append]
          refine ⟨hs3, ihc, ?_⟩
          intro x hx y hy
          have hxm : x ∈ (buildSentenceUnits pos (splitIntoSentences (trimStr p))).1 :=
            List.mem_of_mem_getLast? hx
          have hym := List.mem_of_mem_head? hy
          have h1 := (hs2 x hxm).2.2
          have h2 := (ihb y hym).1
          omega
      · -- light branch: one unit for the paragraph
        obtain ⟨ihb, ihc⟩ := ih (pos + (trimStr p).length + 2)
        constructor
        · intro u hu
          rcases List.mem_cons.mp hu with he | hm
          · subst he
            exact ⟨le_rfl, by simp⟩
          · obtain ⟨ha, hb⟩ := ihb u hm
            exact ⟨by omega, hb⟩
        · rw [List.chain'_cons']
          refine ⟨?_, ihc⟩
          intro b hb
          have hbm := List.mem_of_mem_head? hb
          have := (ihb b hbm).1
          simp only
          omega

theorem chain_pairwise_pos :
    ∀ (l : List SemanticUnit),
      (∀ u ∈ l, u.startPosition < u.endPosition) →
      List.Chain' (fun a b => a.endPosition ≤ b.startPosition) l →
      List.Pairwise (fun a b => a.endPosition ≤ b.startPosition) l := by
  intro l
  induction l with
  | nil => intro _ _; exact List.Pairwise.nil
  | cons u rest ih =>
    intro hlt hch
    have hch' : List.Chain' (fun a b => a.endPosition ≤ b.startPosition) rest :=
      (List.chain'_cons'.mp hch).2
    have hpw := ih (fun v hv => hlt v (List.mem_cons_of_mem _ hv)) hch'
    refine List.Pairwise.cons ?_ hpw
    intro w hw
    cases rest with
    | nil => exact absurd hw (by simp)
    | cons r1 rest' =>
      have hur1 : u.endPosition ≤ r1.startPosition :=
        (List.chain'_cons'.mp hch).1 r1 (by simp)
      rcases List.mem_cons.mp hw with he | hm
      · rw [he]; exact hur1
      · have hr1w : r1.endPosition ≤ w.startPosition :=
          (List.pairwise_cons.mp hpw).1 w hm
        have hr1lt : r1.startPosition < r1.endPosition :=
          hlt r1 (List.mem_cons_of_mem _ (List.mem_cons_self _ _))
        omega

theorem units_pos (svcMax : Nat) (text : List Char) :
    (∀ u ∈ splitIntoSemanticUnits svcMax text,
      u.startPosition + u.content.length ≤ u.endPosition ∧
      u.startPosition < u.endPosition) ∧
    List.Pairwise (fun a b => a.endPosition ≤ b.startPosition)
      (splitIntoSemanticUnits svcMax text) := by
  obtain ⟨hb, hc⟩ := buildUnits_pos svcMax (splitParas text) 0
  have hlt : ∀ u ∈ splitIntoSemanticUnits svcMax text,
      u.startPosition < u.endPosition := by
    intro u hu
    have hspan := (hb u hu).2
    have hcne := (units_contentOK svcMax text u hu).1
    have : 1 ≤ u.content.length := by
      cases hx : u.content with
      | nil => exact absurd hx hcne
      | cons a b => simp
    omega
  refine ⟨fun u hu => ⟨(hb u hu).2, hlt u hu⟩, ?_⟩
  exact chain_pairwise_pos _ hlt hc

theorem head_lt_getLast_end :
    ∀ (rest : List SemanticUnit) (u0 : SemanticUnit),
      (∀ v ∈ u0 :: rest, v.startPosition < v.endPosition) →
      List.Chain' (fun a b => a.endPosition ≤ b.startPosition) (u0 :: rest) →
      ∃ ul, (u0 :: rest).getLast? = some ul ∧ u0.startPosition < ul.endPosition := by
  intro rest
  induction rest with
  | nil =>
    intro u0 hlt _
    exact ⟨u0, rfl, hlt u0 (by simp)⟩
  | cons r1 rest' ih =>
    intro u0 hlt hch
    obtain ⟨ul, hul, hlt2⟩ := ih r1 (fun v hv => hlt v (List.mem_cons_of_mem _ hv))
      (List.chain'_cons'.mp hch).2
    refine ⟨ul, by rw [List.getLast?_cons_cons]; exact hul, ?_⟩
    have h01 : u0.endPosition ≤ r1.startPosition :=
      (List.chain'_cons'.mp hch).1 r1 (by simp)
    have h0 : u0.startPosition < u0.endPosition := hlt u0 (by simp)
    omega

theorem buildChunk_pos {us : List SemanticUnit} (idx : Nat) (hne : us ≠ [])
    (hlt : ∀ v ∈ us, v.startPosition < v.endPosition)
    (hch : List.Chain' (fun a b => a.endPosition ≤ b.startPosition) us) :
    (buildChunk us idx).startPosition < (buildChunk us idx).endPosition := by
  obtain ⟨u0, rest, he⟩ := List.exists_cons_of_ne_nil hne
  subst he
  obtain ⟨ul, hul, hlt2⟩ := head_lt_getLast_end rest u0 hlt hch
  show ((u0 :: rest).head?.map (·.startPosition)).getD 0 <
    (((u0 :: rest).getLast?.map (·.endPosition)).getD 0)
  rw [hul]
  simpa using hlt2

theorem chain'_of_suffix {α : Type} {R : α → α → Prop} {l' l : List α}
    (h : List.IsSuffix l' l) (hc : List.Chain' R l) : List.Chain' R l' := by
  obtain ⟨t, ht⟩ := h
  rw [← ht] at hc
  exact (List.chain'_append.mp hc).2.1

/-- The `createChunks` fold invariant behind the corrected index/position
claim: accumulated units have increasing, well-formed positions, closed
chunks have `startPosition < endPosition`, and the closed chunks carry
indices `0, 1, …` in order. -/
def C6Base (st : ChunkState) : Prop :=
  (∀ v ∈ st.cur, v.startPosition < v.endPosition) ∧
  List.Chain' (fun a b => a.endPosition ≤ b.startPosition) st.cur ∧
  (∀ c ∈ st.chunks, c.startPosition < c.endPosition) ∧
  st.chunks.map (·.index) = List.range st.idx

theorem stepPiece_c6 (maxT : Nat) (st : ChunkState) (su : SemanticUnit) (B : Nat)
    (hsu : su.startPosition < su.endPosition)
    (hbefore : ∀ v ∈ st.cur, v.endPosition ≤ su.startPosition)
    (hsuB : su.endPosition ≤ B)
    (hcurB : ∀ v ∈ st.cur, v.endPosition ≤ B)
    (hinv : C6Base st) :
    C6Base (stepPiece maxT st su) ∧
    (∀ v ∈ (stepPiece maxT st su).cur, v.endPosition ≤ B) := by
  obtain ⟨hA, hB, hD, hE⟩ := hinv
  rw [stepPiece]
  by_cases hcond : st.curTok + su.tokenCount > maxT ∧ st.cur ≠ []
  · rw [if_pos hcond]
    refine ⟨⟨?_, ?_, ?_, ?_⟩, ?_⟩
    · intro v hv
      have : v = su := by simpa using hv
      rw [this]; exact hsu
    · exact List.chain'_singleton _
    · intro c hc
      rcases List.mem_append.mp hc with h1 | h2
      · exact hD c h1
      · rw [List.mem_singleton.mp h2]
        exact buildChunk_pos st.idx hcond.2 hA hB
    · simp only [List.map_append, hE, List.map_cons, List.map_nil]
      rw [List.range_succ]
      rfl
    · intro v hv
      have : v = su := by simpa using hv
      rw [this]; exact hsuB
  · rw [if_neg hcond]
    refine ⟨⟨?_, ?_, hD, hE⟩, ?_⟩
    · intro v hv
      rcases List.mem_append.mp hv with h1 | h2
      · exact hA v h1
      · rw [List.mem_singleton.mp h2]; exact hsu
    · rw [List.chain'_append]
      refine ⟨hB, List.chain'_singleton _, ?_⟩
      intro x hx y hy
      have hxm := List.mem_of_mem_getLast? hx
      have hy' : y = su := by
        have := hy
        simp only [List.head?_cons, Option.mem_def, Option.some.injEq] at this
        exact this.symm
      rw [hy']
      exact hbefore x hxm
    · intro v hv
      rcases List.mem_append.mp hv with h1 | h2
      · exact hcurB v h1
      · rw [List.mem_singleton.mp h2]; exact hsuB

theorem foldl_stepPiece_c6 (maxT : Nat) :
    ∀ (ps : List SemanticUnit) (st : ChunkState) (B : Nat),
      (∀ q ∈ ps, q.startPosition < q.endPosition) →
      List.Pairwise (fun a b => a.endPosition ≤ b.startPosition) ps →
      (∀ q ∈ ps, ∀ v ∈ st.cur, v.endPosition ≤ q.startPosition) →
      (∀ q ∈ ps, q.endPosition ≤ B) →
      (∀ v ∈ st.cur, v.endPosition ≤ B) →
      C6Base st →
      C6Base (ps.foldl (stepPiece maxT) st) ∧
      (∀ v ∈ (ps.foldl (stepPiece maxT) st).cur, v.endPosition ≤ B) := by
  intro ps
  induction ps with
  | nil => intro st B _ _ _ _ hcurB hinv; exact ⟨hinv, hcurB⟩
  | cons q qs ih =>
    intro st B hlt hpw hbef hqB hcurB hinv
    rw [List.foldl_cons]
    have hstep := stepPiece_c6 maxT st q B (hlt q (by simp))
      (hbef q (by simp)) (hqB q (by simp)) hcurB hinv
    refine ih (stepPiece maxT st q) B
      (fun x hx => hlt x (List.mem_cons_of_mem _ hx))
      (List.pairwise_cons.mp hpw).2 ?_
      (fun x hx => hqB x (List.mem_cons_of_mem _ hx))
      ?_ hstep.1
    · intro w hw v hv
      -- v is q or an old element; either way its end is at most q.end ≤ w.start
      have hqw : q.endPosition ≤ w.startPosition :=
        (List.pairwise_cons.mp hpw).1 w hw
      rw [stepPiece] at hv
      by_cases hcond : st.curTok + q.tokenCount > maxT ∧ st.cur ≠ []
      · rw [if_pos hcond] at hv
        have : v = q := by simpa using hv
        rw [this]
        exact hqw
      · rw [if_neg hcond] at hv
        rcases List.mem_append.mp hv with h1 | h2
        · have h3 := hbef q (by simp) v h1
          have h4 := hlt q (by simp)
          omega
        · rw [List.mem_singleton.mp h2]
          exact hqw
    · exact hstep.2

theorem stepUnit_c6_core (o : ChunkingOptions) (st1 : ChunkState) (u : SemanticUnit)
    (hu_lt : u.startPosition < u.endPosition)
    (hu_span : u.startPosition + u.content.length ≤ u.endPosition)
    (hf2 : ∀ v ∈ st1.cur, v.endPosition ≤ u.startPosition)
    (hf1 : C6Base st1) :
    C6Base (if u.tokenCount > o.maxTokens then
        (splitLargeUnit u o.maxTokens).foldl (stepPiece o.maxTokens) st1
      else { st1 with cur := st1.cur ++ [u], curTok := st1.curTok + u.tokenCount }) ∧
    (∀ v ∈ (if u.tokenCount > o.maxTokens then
        (splitLargeUnit u o.maxTokens).foldl (stepPiece o.maxTokens) st1
      else { st1 with cur := st1.cur ++ [u], curTok := st1.curTok + u.tokenCount }).cur,
      v.endPosition ≤ u.endPosition) := by
  obtain ⟨hA, hB, hD, hE⟩ := hf1
  by_cases htok : u.tokenCount > o.maxTokens
  · rw [if_pos htok]
    obtain ⟨hpb, hpc⟩ := splitLargeUnit_bounds u o.maxTokens hu_span
    have hplt : ∀ q ∈ splitLargeUnit u o.maxTokens,
        q.startPosition < q.endPosition := fun q hq => (hpb q hq).2.1
    have hppw := chain_pairwise_pos _ hplt hpc
    exact foldl_stepPiece_c6 o.maxTokens (splitLargeUnit u o.maxTokens) st1
      u.endPosition hplt hppw
      (fun q hq v hv => le_trans (hf2 v hv) (hpb q hq).1)
      (fun q hq => (hpb q hq).2.2)
      (fun v hv => le_trans (hf2 v hv) (le_of_lt hu_lt))
      ⟨hA, hB, hD, hE⟩
  · rw [if_neg htok]
    refine ⟨⟨?_, ?_, hD, hE⟩, ?_⟩
    · intro v hv
      rcases List.mem_append.mp hv with h1 | h2
      · exact hA v h1
      · rw [List.mem_singleton.mp h2]; exact hu_lt
    · rw [List.chain'_append]
      refine ⟨hB, List.chain'_singleton _, ?_⟩
      intro x hx y hy
      have hxm := List.mem_of_mem_getLast? hx
      have hy' : y = u := by
        have := hy
        simp only [List.head?_cons, Option.mem_def, Option.some.injEq] at this
        exact this.symm
      rw [hy']
      exact hf2 x hxm
    · intro v hv
      rcases List.mem_append.mp hv with h1 | h2
      · exact le_trans (hf2 v h1) (le_of_lt hu_lt)
      · rw [List.mem_singleton.mp h2]

theorem stepUnit_c6 (o : ChunkingOptions) (st : ChunkState) (u : SemanticUnit)
    (hu_lt : u.startPosition < u.endPosition)
    (hu_span : u.startPosition + u.content.length ≤ u.endPosition)
    (hbefore : ∀ v ∈ st.cur, v.endPosition ≤ u.startPosition)
    (hinv : C6Base st) :
    C6Base (stepUnit o st u) ∧
    (∀ v ∈ (stepUnit o st u).cur, v.endPosition ≤ u.endPosition) := by
  obtain ⟨hA, hB, hD, hE⟩ := hinv
  rw [stepUnit]
  dsimp only
  have hf1 : C6Base (if st.curTok + u.tokenCount > o.maxTokens ∧ st.cur ≠ [] then
      if 0 < o.overlapTokens then
        { chunks := st.chunks ++ [buildChunk st.cur st.idx],
          cur := createOverlap st.cur o.overlapTokens,
          curTok := ((createOverlap st.cur o.overlapTokens).map (·.tokenCount)).sum,
          idx := st.idx + 1 }
      else
        { chunks := st.chunks ++ [buildChunk st.cur st.idx],
          cur := [], curTok := 0, idx := st.idx + 1 }
    else st) := by
    by_cases hcond : st.curTok + u.tokenCount > o.maxTokens ∧ st.cur ≠ []
    · rw [if_pos hcond]
      have hD' : ∀ c ∈ st.chunks ++ [buildChunk st.cur st.idx],
          c.startPosition < c.endPosition := by
        intro c hc
        rcases List.mem_append.mp hc with h1 | h2
        · exact hD c h1
        · rw [List.mem_singleton.mp h2]
          exact buildChunk_pos st.idx hcond.2 hA hB
      have hE' : (st.chunks ++ [buildChunk st.cur st.idx]).map (·.index) =
          List.range (st.idx + 1) := by
        simp only [List.map_append, hE, List.map_cons, List.map_nil]
        rw [List.range_succ]
        rfl
      by_cases hov : 0 < o.overlapTokens
      · rw [if_pos hov]
        refine ⟨?_, ?_, hD', hE'⟩
        · intro v hv
          exact hA v (createOverlap_mem hv)
        · exact chain'_of_suffix (createOverlap_isSuffix st.cur o.overlapTokens) hB
      · rw [if_neg hov]
        exact ⟨by simp, List.chain'_nil, hD', hE'⟩
    · rw [if_neg hcond]
      exact ⟨hA, hB, hD, hE⟩
  have hf2 : ∀ v ∈ (if st.curTok + u.tokenCount > o.maxTokens ∧ st.cur ≠ [] then
      if 0 < o.overlapTokens then
        { chunks := st.chunks ++ [buildChunk st.cur st.idx],
          cur := createOverlap st.cur o.overlapTokens,
          curTok := ((createOverlap st.cur o.overlapTokens).map (·.tokenCount)).sum,
          idx := st.idx + 1 }
      else
        { chunks := st.chunks ++ [buildChunk st.cur st.idx],
          cur := [], curTok := 0, idx := st.idx + 1 }
    else st).cur, v.endPosition ≤ u.startPosition := by
    by_cases hcond : st.curTok + u.tokenCount > o.maxTokens ∧ st.cur ≠ []
    · rw [if_pos hcond]
      by_cases hov : 0 < o.overlapTokens
      · rw [if_pos hov]
        intro v hv
        exact hbefore v (createOverlap_mem hv)
      · rw [if_neg hov]
        intro v hv
        exact absurd hv (by simp)
    · rw [if_neg hcond]
      exact hbefore
  exact stepUnit_c6_core o _ u hu_lt hu_span hf2 hf1

theorem foldl_c6 (o : ChunkingOptions) :
    ∀ (units : List SemanticUnit) (st : ChunkState),
      (∀ u ∈ units, u.startPosition < u.endPosition ∧
        u.startPosition + u.content.length ≤ u.endPosition) →
      List.Pairwise (fun a b => a.endPosition ≤ b.startPosition) units →
      (∀ w ∈ units, ∀ v ∈ st.cur, v.endPosition ≤ w.startPosition) →
      C6Base st →
      C6Base (units.foldl (stepUnit o) st) := by
  intro units
  induction units with
  | nil => intro st _ _ _ h; exact h
  | cons u rest ih =>
    intro st hu hpw hbef hinv
    rw [List.foldl_cons]
    obtain ⟨hstep, hend⟩ := stepUnit_c6 o st u (hu u (by simp)).1 (hu u (by simp)).2
      (hbef u (by simp)) hinv
    refine ih (stepUnit o st u)
      (fun w hw => hu w (List.mem_cons_of_mem _ hw))
      (List.pairwise_cons.mp hpw).2 ?_ hstep
    intro w hw v hv
    have h1 := hend v hv
    have h2 := (List.pairwise_cons.mp hpw).1 w hw
    omega

theorem createChunksRaw_c6 (o : ChunkingOptions) (units : List SemanticUnit)
    (hu : ∀ u ∈ units, u.startPosition < u.endPosition ∧
      u.startPosition + u.content.length ≤ u.endPosition)
    (hpw : List.Pairwise (fun a b => a.endPosition ≤ b.startPosition) units) :
    (createChunksRaw o units).map (·.index) =
      List.range (createChunksRaw o units).length ∧
    ∀ c ∈ createChunksRaw o units, c.startPosition < c.endPosition := by
  have hinv : C6Base (units.foldl (stepUnit o) ⟨[], [], 0, 0⟩) :=
    foldl_c6 o units ⟨[], [], 0, 0⟩ hu hpw (by simp)
      ⟨by simp, List.chain'_nil, by simp, by simp⟩
  obtain ⟨hA, hB, hD, hE⟩ := hinv
  have hlen : (units.foldl (stepUnit o) ⟨[], [], 0, 0⟩).chunks.length =
      (units.foldl (stepUnit o) ⟨[], [], 0, 0⟩).idx := by
    have := congrArg List.length hE
    simpa using this
  rw [createChunksRaw]
  by_cases hcur : (units.foldl (stepUnit o) ⟨[], [], 0, 0⟩).cur ≠ []
  · rw [if_pos hcur]
    constructor
    · simp only [List.map_append, hE, List.map_cons, List.map_nil,
        List.length_append, List.length_cons, List.length_nil, hlen]
      rw [List.range_succ]
      rfl
    · intro c hc
      rcases List.mem_append.mp hc with h1 | h2
      · exact hD c h1
      · rw [List.mem_singleton.mp h2]
        exact buildChunk_pos _ hcur hA hB
  · rw [if_neg hcur]
    exact ⟨by rw [hE, hlen], hD⟩

/-- **C6.** Corrected contiguity/position invariant.  The chunks produced by
assembly carry indices `0, 1, 2, …` in list order and every one of them
(hence every returned chunk) satisfies `startPosition < endPosition`; but
the returned list is the assembled list *filtered* by the minimum-size rule,
which can remove middle chunks, so the i-th *returned* chunk need not have
`index == i` (see the counterexample). -/
theorem c6_amended_indices_positions (svc : ChunkingOptions)
    (p : PartialChunkingOptions) (text : List Char) (h : trimStr text ≠ []) :
    ∃ raw : List DocumentChunk,
      chunkDocument svc p text =
        .ok (raw.filter fun c =>
          (mergeOptions svc p).minChunkSize ≤ c.tokenCount || raw.length = 1) ∧
      raw.map (·.index) = List.range raw.length ∧
      (∀ c ∈ raw, c.startPosition < c.endPosition) ∧
      ∀ c ∈ raw.filter fun c =>
          (mergeOptions svc p).minChunkSize ≤ c.tokenCount || raw.length = 1,
        c.startPosition < c.endPosition := by
  obtain ⟨hup, hpw⟩ := units_pos svc.maxTokens (normalizeText text)
  obtain ⟨hidx, hpos⟩ := createChunksRaw_c6 (mergeOptions svc p)
    (splitIntoSemanticUnits svc.maxTokens (normalizeText text))
    (fun u hu => ⟨(hup u hu).2, (hup u hu).1⟩) hpw
  refine ⟨createChunksRaw (mergeOptions svc p)
    (splitIntoSemanticUnits svc.maxTokens (normalizeText text)), ?_, hidx, hpos, ?_⟩
  · rw [chunkDocument, if_neg h]
    rfl
  · intro c hc
    exact hpos c (List.mem_filter.mp hc).1

/-- Witness for C6: the amended invariant applies to `"One. Two."` under the
default options. -/
theorem c6_amended_witness :
    (trimStr "One. Two.".data ≠ []) ∧
    ∃ raw : List DocumentChunk,
      chunkDocument ⟨1500, 150, 100⟩ {} "One. Two.".data =
        .ok (raw.filter fun c =>
          (mergeOptions ⟨1500, 150, 100⟩ {}).minChunkSize ≤ c.tokenCount ||
          raw.length = 1) ∧
      raw.map (·.index) = List.range raw.length ∧
      (∀ c ∈ raw, c.startPosition < c.endPosition) ∧
      ∀ c ∈ raw.filter fun c =>
          (mergeOptions ⟨1500, 150, 100⟩ {}).minChunkSize ≤ c.tokenCount ||
          raw.length = 1,
        c.startPosition < c.endPosition :=
  ⟨by decide,
   c6_amended_indices_positions ⟨1500, 150, 100⟩ {} "One. Two.".data (by decide)⟩
